import Mathlib

/-!
Shallow embedding of the Quora "Nearby" solver (src/nearby.cpp, src/nearby.h).

Coordinates are modelled as rationals (the textual input values), Euclidean
distances as real numbers via `Real.sqrt` (the code's `hypot`), ids as
integers (C++ `int`, only compared).  The `std::set` containers with the
query-time comparators are modelled as lists kept in comparator order:
insertion places the element before the first strictly greater one and is a
no-op when an equivalent element is present (set uniqueness), erase-by-value
removes the first equivalent element, and the `while (size > numResults)`
trimming loops drop the last element repeatedly.  The `unordered_map`
registries and the `closestQuestionTopic` map are modelled as functions.
-/

namespace NearbySolver

open Classical

/-- A topic record: id, 2-D coordinate, and the list of ids of questions
that list this topic (filled during question input). -/
structure Topic where
  id : ℤ
  x : ℚ
  y : ℚ
  questionIds : List ℤ
deriving DecidableEq

instance : Inhabited Topic := ⟨⟨0, 0, 0, []⟩⟩

/-- `Topic::coordinateAt`: coordinate on the axis selected by depth parity. -/
def Topic.coordinateAt (t : Topic) (dim : ℕ) : ℚ :=
  if dim = 0 then t.x else t.y

/-- Component of the query position on a given axis
(`queryPosition[depthParity]`). -/
def posAt (pos : ℚ × ℚ) (dim : ℕ) : ℚ :=
  if dim = 0 then pos.1 else pos.2

/-- `EPSILON = 1e-3` from nearby.h. -/
noncomputable def EPSILON : ℝ := 1 / 1000

/-- `compareDouble(a, b)` from nearby.h: `(a - b) > EPSILON`. -/
def compareDouble (a b : ℝ) : Prop := a - b > EPSILON

/-- Euclidean distance (`hypot`) from the query position to the point
`(x, y)`. -/
noncomputable def distToQuery (pos : ℚ × ℚ) (x y : ℚ) : ℝ :=
  Real.sqrt (((x : ℝ) - (pos.1 : ℝ)) ^ 2 + ((y : ℝ) - (pos.2 : ℝ)) ^ 2)

/-- `operator< (const Topic&, const Topic&)`: farther-by-more-than-epsilon
sorts later, nearer-by-more-than-epsilon sorts earlier, epsilon-ties sort
the larger id first. -/
noncomputable def topicLT (pos : ℚ × ℚ) (t1 t2 : Topic) : Prop :=
  if compareDouble (distToQuery pos t1.x t1.y) (distToQuery pos t2.x t2.y) then False
  else if compareDouble (distToQuery pos t2.x t2.y) (distToQuery pos t1.x t1.y) then True
  else t1.id > t2.id

/-- The topic registry `unordered_map<int, Topic> topics`, as a total
function (`operator[]` default-constructs missing entries). -/
def TopicReg := ℤ → Topic

/-- `operator< (const Question&, const Question&)`: compares the distances of
the two questions' currently recorded best topics (via
`closestQuestionTopic` and the topic registry), epsilon-ties sort the larger
question id first.  A question is observationally its id.  Missing map
entries read as the default value 0 (`operator[]` default-construction). -/
noncomputable def questionLT (pos : ℚ × ℚ) (reg : TopicReg) (cqt : ℤ → Option ℤ)
    (q1 q2 : ℤ) : Prop :=
  let t1 := reg ((cqt q1).getD 0)
  let t2 := reg ((cqt q2).getD 0)
  if compareDouble (distToQuery pos t1.x t1.y) (distToQuery pos t2.x t2.y) then False
  else if compareDouble (distToQuery pos t2.x t2.y) (distToQuery pos t1.x t1.y) then True
  else q1 > q2

/-- Model of `std::set` insertion into the comparator-ordered element list:
walk from the front, insert before the first strictly greater element, and
do nothing when an equivalent element (neither less nor greater) is found. -/
noncomputable def setInsert {α : Type} (lt : α → α → Prop) (a : α) : List α → List α
  | [] => [a]
  | b :: bs =>
    if lt a b then a :: b :: bs
    else if lt b a then b :: setInsert lt a bs
    else b :: bs

/-- Model of `std::set::erase(value)`: remove the element equivalent to `a`
under the comparator (neither less nor greater), when one is present. -/
noncomputable def setEraseV {α : Type} (lt : α → α → Prop) (a : α) : List α → List α
  | [] => []
  | b :: bs =>
    if ¬ lt a b ∧ ¬ lt b a then bs
    else b :: setEraseV lt a bs

/-- One `erase(prev(cend()))` step, iterated: drop the last element `n`
times. -/
def dropLastIter {α : Type} : ℕ → List α → List α
  | 0, s => s
  | n + 1, s => dropLastIter n s.dropLast

/-- `while (size > numResults) erase(prev(cend()))` on the topic set. -/
def trimT (k : ℕ) {α : Type} (s : List α) : List α :=
  dropLastIter (s.length - k) s

/-- The kd-tree: `Node` with a `Topic` payload and two child links,
`nullptr` modelled as `nil`. -/
inductive Tree where
  | nil : Tree
  | node : Topic → Tree → Tree → Tree

/-- `KDTree::insert(Node*, int, const Topic&)`: descend comparing the
coordinate on the depth-parity axis, strictly-less goes left, otherwise
right; a new node is created at an absent slot. -/
def Tree.insert : Tree → ℕ → Topic → Tree
  | .nil, _, t => .node t .nil .nil
  | .node tc l r, depth, t =>
    if t.coordinateAt (depth % 2) < tc.coordinateAt (depth % 2) then
      .node tc (l.insert (depth + 1) t) r
    else
      .node tc l (r.insert (depth + 1) t)

/-- `KDTree::insert(const Topic&)`: insert starting at the root, depth 0. -/
def Tree.insertTop (t : Tree) (topic : Topic) : Tree := t.insert 0 topic

/-- Build the index by inserting a list of topics in order into the empty
tree (the build phase of `solve`). -/
def buildTree (ts : List Topic) : Tree :=
  ts.foldl Tree.insertTop .nil

/-- `KDTree::kNNTopics(Node*, int, const vector<double>&)`: insert the node's
topic, trim to `k`, recurse into the near child, then into the far child only
when the set is still short or the perpendicular splitting-plane distance is
(strictly, raw `<`) smaller than the distance of the current worst-kept
topic. -/
noncomputable def kNNTopics (pos : ℚ × ℚ) (k : ℕ) : Tree → ℕ → List Topic → List Topic
  | .nil, _, s => s
  | .node t l r, depth, s =>
    let s1 := trimT k (setInsert (topicLT pos) t s)
    if posAt pos (depth % 2) < t.coordinateAt (depth % 2) then
      let s2 := kNNTopics pos k l (depth + 1) s1
      if s2.length < k then kNNTopics pos k r (depth + 1) s2
      else
        match s2.getLast? with
        | none => s2
        | some w =>
          if ((|posAt pos (depth % 2) - t.coordinateAt (depth % 2)| : ℚ) : ℝ) <
              distToQuery pos w.x w.y then
            kNNTopics pos k r (depth + 1) s2
          else s2
    else
      let s2 := kNNTopics pos k r (depth + 1) s1
      if s2.length < k then kNNTopics pos k l (depth + 1) s2
      else
        match s2.getLast? with
        | none => s2
        | some w =>
          if ((|posAt pos (depth % 2) - t.coordinateAt (depth % 2)| : ℚ) : ℝ) <
              distToQuery pos w.x w.y then
            kNNTopics pos k l (depth + 1) s2
          else s2

/-- Point update on the `closestQuestionTopic` map
(`closestQuestionTopic[q] = v` / `iter->second = v`). -/
def mapInsert (m : ℤ → Option ℤ) (k v : ℤ) : ℤ → Option ℤ :=
  fun q => if q = k then some v else m q

/-- `closestQuestionTopic.erase(k)`. -/
def mapErase (m : ℤ → Option ℤ) (k : ℤ) : ℤ → Option ℤ :=
  fun q => if q = k then none else m q

/-- The transient per-query state of a question query: the bounded question
result set (`set<Question> questionSet`, elements identified by the question
id) and the `closestQuestionTopic` map. -/
structure QState where
  qset : List ℤ
  cqt : ℤ → Option ℤ

/-- The body of the per-question loop in `KDTree::kNNQuestions` (lines
119-142): when the question has no recorded best topic, record the visited
topic and insert the question; otherwise, when the visited topic is closer by
more than epsilon, or epsilon-tied with a numerically greater id, erase the
question under its old key, update the map, and re-insert under the new
key. -/
noncomputable def processQuestion (pos : ℚ × ℚ) (reg : TopicReg) (curId : ℤ)
    (st : QState) (qi : ℤ) : QState :=
  match st.cqt qi with
  | none =>
    let m1 := mapInsert st.cqt qi curId
    ⟨setInsert (questionLT pos reg m1) qi st.qset, m1⟩
  | some topicId =>
    let dist1 := distToQuery pos (reg topicId).x (reg topicId).y
    let dist2 := distToQuery pos (reg curId).x (reg curId).y
    if compareDouble dist1 dist2 ∨ (|dist1 - dist2| ≤ EPSILON ∧ curId > topicId) then
      let s1 := setEraseV (questionLT pos reg st.cqt) qi st.qset
      let m1 := mapInsert st.cqt qi curId
      ⟨setInsert (questionLT pos reg m1) qi s1, m1⟩
    else st

/-- The whole per-question loop at one node: fold the loop body over
`topics[currentNode->topic.getId()].getQuestionIds()`. -/
noncomputable def processQuestions (pos : ℚ × ℚ) (reg : TopicReg) (curId : ℤ)
    (st : QState) : QState :=
  (reg curId).questionIds.foldl (processQuestion pos reg curId) st

/-- One `while (size > numResults)` eviction step of the question set,
iterated `n` times: erase the last element's map entry, then the element. -/
def trimQIter : ℕ → QState → QState
  | 0, st => st
  | n + 1, st =>
    trimQIter n ⟨st.qset.dropLast, mapErase st.cqt (st.qset.getLastD 0)⟩

/-- `while (size > numResults) { erase map entry of last; erase last }` on
the question set (lines 144-148). -/
def trimQ (k : ℕ) (st : QState) : QState :=
  trimQIter (st.qset.length - k) st

/-- `KDTree::kNNQuestions(Node*, int, const vector<double>&)`: process all
questions of the visited topic, trim, recurse into the near child, then into
the far child only when the set is still short or the perpendicular
splitting-plane distance is (raw `<`) smaller than the distance of the worst
kept question's recorded best topic. -/
noncomputable def kNNQuestions (pos : ℚ × ℚ) (reg : TopicReg) (k : ℕ) :
    Tree → ℕ → QState → QState
  | .nil, _, st => st
  | .node t l r, depth, st =>
    let st1 := trimQ k (processQuestions pos reg t.id st)
    if posAt pos (depth % 2) < t.coordinateAt (depth % 2) then
      let st2 := kNNQuestions pos reg k l (depth + 1) st1
      if st2.qset.length < k then kNNQuestions pos reg k r (depth + 1) st2
      else
        match st2.qset.getLast? with
        | none => st2
        | some w =>
          let ct := reg ((st2.cqt w).getD 0)
          if ((|posAt pos (depth % 2) - t.coordinateAt (depth % 2)| : ℚ) : ℝ) <
              distToQuery pos ct.x ct.y then
            kNNQuestions pos reg k r (depth + 1) st2
          else st2
    else
      let st2 := kNNQuestions pos reg k r (depth + 1) st1
      if st2.qset.length < k then kNNQuestions pos reg k l (depth + 1) st2
      else
        match st2.qset.getLast? with
        | none => st2
        | some w =>
          let ct := reg ((st2.cqt w).getD 0)
          if ((|posAt pos (depth % 2) - t.coordinateAt (depth % 2)| : ℚ) : ℝ) <
              distToQuery pos ct.x ct.y then
            kNNQuestions pos reg k l (depth + 1) st2
          else st2

/-- A parsed query record: type character, `K`, and the query coordinate. -/
structure Query where
  qtype : Char
  k : ℕ
  pos : ℚ × ℚ

/-- The process-wide mutable containers that survive between queries. -/
structure GState where
  topicSet : List Topic
  qstate : QState

/-- One iteration of the query loop in `solve`: a `t` query clears the topic
set and runs `kNNTopics`, a `q` query clears the question set and the
`closestQuestionTopic` map and runs `kNNQuestions`; any other type character
does nothing and prints nothing.  Returns the printed id line (in set order)
and the new global state. -/
noncomputable def runQuery (tree : Tree) (reg : TopicReg) (g : GState) (q : Query) :
    Option (List ℤ) × GState :=
  if q.qtype = 't' then
    let r := kNNTopics q.pos q.k tree 0 []
    (some (r.map Topic.id), ⟨r, g.qstate⟩)
  else if q.qtype = 'q' then
    let st := kNNQuestions q.pos reg q.k tree 0 ⟨[], fun _ => none⟩
    (some st.qset, ⟨g.topicSet, st⟩)
  else (none, g)

/-- Modelled from the spec: brute-force top-K topic selection — "computing
distances to all topics directly and selecting the top K under the same
comparator".  All topics are inserted into the same comparator-ordered
bounded set, and the first K survive. -/
noncomputable def bruteTopics (pos : ℚ × ℚ) (k : ℕ) (ts : List Topic) : List Topic :=
  (ts.foldl (fun s t => setInsert (topicLT pos) t s) []).take k

/- Concrete scenario A: two topics, id 1 at (1, 0) and id 2 at (1.0005, 0),
query at the origin with K = 1.  The distances 1 and 1.0005 differ by less
than EPSILON, so under the comparator topic 2 (larger id) precedes topic 1. -/

/-- Scenario A topic 1. -/
def exT1 : Topic := ⟨1, 1, 0, []⟩

/-- Scenario A topic 2. -/
def exT2 : Topic := ⟨2, 10005 / 10000, 0, []⟩

/-- Scenario A index: topic 1 then topic 2 inserted into the empty tree. -/
def treeA : Tree := buildTree [exT1, exT2]

/-- Distance helper: for a query on the x-axis and a point on the x-axis the
Euclidean distance collapses to an absolute difference of rationals. -/
lemma distToQuery_y0 (a x : ℚ) : distToQuery (a, 0) x 0 = |(x : ℝ) - (a : ℝ)| := by
  simp [distToQuery, Real.sqrt_sq_eq_abs]

/-- Distance helper for queries at the origin. -/
lemma distToQuery_origin (x : ℚ) : distToQuery 0 x 0 = |(x : ℝ)| := by
  simp [distToQuery, Real.sqrt_sq_eq_abs]

lemma runA_topics : kNNTopics (0, 0) 1 treeA 0 [] = [exT1] := by
  norm_num [treeA, buildTree, Tree.insertTop, Tree.insert, exT1, exT2,
    Topic.coordinateAt, kNNTopics, posAt, setInsert, trimT, dropLastIter,
    topicLT, compareDouble, EPSILON, distToQuery_origin, Rat.cast_abs,
    abs_of_nonneg, abs_of_nonpos]

lemma runA_brute : bruteTopics (0, 0) 1 [exT1, exT2] = [exT2] := by
  norm_num [bruteTopics, exT1, exT2, setInsert, topicLT, compareDouble,
    EPSILON, distToQuery_origin, abs_of_nonneg, abs_of_nonpos]

/-- Modelled from the spec: the topic traversal with the far-child pruning
decision governed by the epsilon equality policy — the far child is explored
unless the perpendicular splitting-plane distance exceeds the worst-kept
distance by more than epsilon (`compareDouble`), i.e. distances within
epsilon are treated as equal, so an epsilon-tied far side still "could
contain something closer". -/
noncomputable def kNNTopicsEps (pos : ℚ × ℚ) (k : ℕ) : Tree → ℕ → List Topic → List Topic
  | .nil, _, s => s
  | .node t l r, depth, s =>
    let s1 := trimT k (setInsert (topicLT pos) t s)
    if posAt pos (depth % 2) < t.coordinateAt (depth % 2) then
      let s2 := kNNTopicsEps pos k l (depth + 1) s1
      if s2.length < k then kNNTopicsEps pos k r (depth + 1) s2
      else
        match s2.getLast? with
        | none => s2
        | some w =>
          if ¬ compareDouble ((|posAt pos (depth % 2) - t.coordinateAt (depth % 2)| : ℚ) : ℝ)
              (distToQuery pos w.x w.y) then
            kNNTopicsEps pos k r (depth + 1) s2
          else s2
    else
      let s2 := kNNTopicsEps pos k r (depth + 1) s1
      if s2.length < k then kNNTopicsEps pos k l (depth + 1) s2
      else
        match s2.getLast? with
        | none => s2
        | some w =>
          if ¬ compareDouble ((|posAt pos (depth % 2) - t.coordinateAt (depth % 2)| : ℚ) : ℝ)
              (distToQuery pos w.x w.y) then
            kNNTopicsEps pos k l (depth + 1) s2
          else s2

lemma runA_eps : kNNTopicsEps (0, 0) 1 treeA 0 [] = [exT2] := by
  norm_num [treeA, buildTree, Tree.insertTop, Tree.insert, exT1, exT2,
    Topic.coordinateAt, kNNTopicsEps, posAt, setInsert, trimT, dropLastIter,
    topicLT, compareDouble, EPSILON, distToQuery_origin, Rat.cast_abs,
    abs_of_nonneg, abs_of_nonpos]

/- Concrete scenario B: three topics id 1 at 0, id 2 at 0.0009, id 3 at
0.0018 (all on the x-axis), inserted in the order 3, 2, 1; topic query at
the origin with K = 3.  The three distances form an epsilon chain:
0 ~ 0.0009 ~ 0.0018 but 0 and 0.0018 differ by more than epsilon. -/

/-- Scenario B topic 1 (at the origin). -/
def tB1 : Topic := ⟨1, 0, 0, []⟩

/-- Scenario B topic 2 (at distance 0.0009). -/
def tB2 : Topic := ⟨2, 9 / 10000, 0, []⟩

/-- Scenario B topic 3 (at distance 0.0018). -/
def tB3 : Topic := ⟨3, 18 / 10000, 0, []⟩

/-- Scenario B index: topics inserted in the order 3, 2, 1. -/
def treeB : Tree := buildTree [tB3, tB2, tB1]

lemma runB_topics : kNNTopics (0, 0) 3 treeB 0 [] = [tB1, tB3, tB2] := by
  norm_num [treeB, buildTree, Tree.insertTop, Tree.insert, tB1, tB2, tB3,
    Topic.coordinateAt, kNNTopics, posAt, setInsert, trimT, dropLastIter,
    topicLT, compareDouble, EPSILON, distToQuery_origin, Rat.cast_abs,
    abs_of_nonneg, abs_of_nonpos]

/- Concrete scenario C: the same three coordinates as scenario B carried by
topics 11, 12, 13, each listing one question (1, 2, 3 respectively);
question query at the origin with K = 3. -/

/-- Scenario C topic for question 1. -/
def tC1 : Topic := ⟨11, 0, 0, [1]⟩

/-- Scenario C topic for question 2. -/
def tC2 : Topic := ⟨12, 9 / 10000, 0, [2]⟩

/-- Scenario C topic for question 3. -/
def tC3 : Topic := ⟨13, 18 / 10000, 0, [3]⟩

/-- Scenario C topic registry. -/
def regC : TopicReg := fun i =>
  if i = 11 then tC1 else if i = 12 then tC2 else if i = 13 then tC3 else default

/-- Scenario C index: topics inserted in the order 13, 12, 11. -/
def treeC : Tree := buildTree [tC3, tC2, tC1]

/-- The question query of scenario C ends with the id list `[1, 3, 2]` and
best-topic map `{1 ↦ 11, 2 ↦ 12, 3 ↦ 13}`. -/
lemma runC_questions :
    (kNNQuestions (0, 0) regC 3 treeC 0 ⟨[], fun _ => none⟩).qset = [1, 3, 2] ∧
    (kNNQuestions (0, 0) regC 3 treeC 0 ⟨[], fun _ => none⟩).cqt 1 = some 11 ∧
    (kNNQuestions (0, 0) regC 3 treeC 0 ⟨[], fun _ => none⟩).cqt 2 = some 12 := by
  norm_num [treeC, buildTree, Tree.insertTop, Tree.insert, tC1, tC2, tC3, regC,
    Topic.coordinateAt, kNNQuestions, processQuestions, processQuestion,
    trimQ, trimQIter, mapInsert, mapErase, posAt, setInsert, setEraseV,
    questionLT, compareDouble, EPSILON, distToQuery_origin, Rat.cast_abs,
    abs_of_nonneg, abs_of_nonpos]

/-! ### The common comparator shape and its order-theoretic properties -/

/-- Both container comparators have the same shape: compare the real-valued
keys with `compareDouble` in both directions, and settle epsilon-ties by the
larger integer id first. -/
noncomputable def cmpLT {α : Type} (key : α → ℝ) (idf : α → ℤ) (a b : α) : Prop :=
  if compareDouble (key a) (key b) then False
  else if compareDouble (key b) (key a) then True
  else idf a > idf b

/-- The Euclidean distance of a topic to the query position. -/
noncomputable def distOf (pos : ℚ × ℚ) (t : Topic) : ℝ := distToQuery pos t.x t.y

/-- The key of a question: the distance of the topic currently recorded for
it in the `closestQuestionTopic` map. -/
noncomputable def qKey (pos : ℚ × ℚ) (reg : TopicReg) (cqt : ℤ → Option ℤ) (q : ℤ) : ℝ :=
  distOf pos (reg ((cqt q).getD 0))

lemma topicLT_eq_cmpLT (pos : ℚ × ℚ) :
    topicLT pos = cmpLT (distOf pos) Topic.id := rfl

lemma questionLT_eq_cmpLT (pos : ℚ × ℚ) (reg : TopicReg) (cqt : ℤ → Option ℤ) :
    questionLT pos reg cqt = cmpLT (qKey pos reg cqt) (fun q => q) := rfl

lemma compareDouble_asymm {a b : ℝ} (h : compareDouble a b) : ¬ compareDouble b a := by
  unfold compareDouble EPSILON at *
  linarith

lemma cmpLT_iff {α : Type} {key : α → ℝ} {idf : α → ℤ} {a b : α} :
    cmpLT key idf a b ↔
      (¬ compareDouble (key a) (key b) ∧
        (compareDouble (key b) (key a) ∨ idf a > idf b)) := by
  unfold cmpLT
  split_ifs with h1 h2
  · simp [h1]
  · simp [h1, h2]
  · simp [h1, h2]

lemma cmpLT_irrefl {α : Type} (key : α → ℝ) (idf : α → ℤ) (a : α) :
    ¬ cmpLT key idf a a := by
  rw [cmpLT_iff]
  rintro ⟨h1, h2 | h2⟩
  · exact h1 h2
  · omega

lemma cmpLT_asymm {α : Type} {key : α → ℝ} {idf : α → ℤ} {a b : α}
    (h : cmpLT key idf a b) : ¬ cmpLT key idf b a := by
  rw [cmpLT_iff] at *
  rintro ⟨h1, h2 | h2⟩
  · exact h.1 h2
  · rcases h.2 with h3 | h3
    · exact h1 h3
    · omega

lemma cmpLT_total_of_ne {α : Type} {key : α → ℝ} {idf : α → ℤ} {a b : α}
    (h : idf a ≠ idf b) : cmpLT key idf a b ∨ cmpLT key idf b a := by
  rw [cmpLT_iff, cmpLT_iff]
  by_cases h1 : compareDouble (key a) (key b)
  · exact Or.inr ⟨compareDouble_asymm h1, Or.inl h1⟩
  · by_cases h2 : compareDouble (key b) (key a)
    · exact Or.inl ⟨h1, Or.inl h2⟩
    · rcases lt_or_gt_of_ne h with hlt | hgt
      · exact Or.inr ⟨h2, Or.inr hlt⟩
      · exact Or.inl ⟨h1, Or.inr hgt⟩

lemma cmpLT_equiv_id {α : Type} {key : α → ℝ} {idf : α → ℤ} {a b : α}
    (hab : ¬ cmpLT key idf a b) (hba : ¬ cmpLT key idf b a) : idf a = idf b := by
  by_contra hne
  rcases @cmpLT_total_of_ne α key idf a b hne with h | h
  · exact hab h
  · exact hba h

/-- Two keys are "separated" when they are exactly equal or differ by more
than epsilon; on separated keys the epsilon comparisons behave like an exact
comparison of keys. -/
def SepKeys (x y : ℝ) : Prop := x = y ∨ |x - y| > EPSILON

lemma sepKeys_symm {x y : ℝ} (h : SepKeys x y) : SepKeys y x := by
  rcases h with h | h
  · exact Or.inl h.symm
  · exact Or.inr (by rw [abs_sub_comm]; exact h)

lemma cmpLT_of_sep {α : Type} {key : α → ℝ} {idf : α → ℤ} {a b : α}
    (h : SepKeys (key a) (key b)) :
    cmpLT key idf a b ↔ (key a < key b ∨ (key a = key b ∧ idf a > idf b)) := by
  have heps : (0 : ℝ) < EPSILON := by unfold EPSILON; norm_num
  unfold cmpLT compareDouble
  rcases h with h | h
  · have e1 : ¬ (key a - key b > EPSILON) := by rw [h]; simp; linarith
    have e2 : ¬ (key b - key a > EPSILON) := by rw [h]; simp; linarith
    rw [if_neg e1, if_neg e2]
    constructor
    · intro hid
      exact Or.inr ⟨h, hid⟩
    · rintro (hlt | ⟨_, hid⟩)
      · exact absurd h (ne_of_lt hlt)
      · exact hid
  · rcases lt_abs.mp h with hgt | hgt
    · rw [if_pos hgt]
      simp only [false_iff]
      push_neg
      refine ⟨by linarith, fun he => absurd he (by intro he2; rw [he2] at hgt; linarith)⟩
    · have e1 : ¬ (key a - key b > EPSILON) := by linarith
      have e2 : key b - key a > EPSILON := by linarith
      rw [if_neg e1, if_pos e2]
      simp only [true_iff]
      exact Or.inl (by linarith)

lemma cmpLT_trans_of_sep {α : Type} {key : α → ℝ} {idf : α → ℤ} {a b c : α}
    (sab : SepKeys (key a) (key b)) (sbc : SepKeys (key b) (key c))
    (sac : SepKeys (key a) (key c))
    (h1 : cmpLT key idf a b) (h2 : cmpLT key idf b c) : cmpLT key idf a c := by
  rw [cmpLT_of_sep sab] at h1
  rw [cmpLT_of_sep sbc] at h2
  rw [cmpLT_of_sep sac]
  rcases h1 with h1 | ⟨e1, i1⟩ <;> rcases h2 with h2 | ⟨e2, i2⟩
  · exact Or.inl (lt_trans h1 h2)
  · exact Or.inl (by rw [← e2]; exact h1)
  · exact Or.inl (by rw [e1]; exact h2)
  · exact Or.inr ⟨e1.trans e2, by omega⟩

/-! ### List-level lemmas about the set operations -/

lemma mem_of_mem_setInsert {α : Type} {lt : α → α → Prop} {a x : α} {l : List α}
    (h : x ∈ setInsert lt a l) : x = a ∨ x ∈ l := by
  induction l with
  | nil => simpa [setInsert] using h
  | cons b bs ih =>
    simp only [setInsert] at h
    split_ifs at h with h1 h2
    · rcases List.mem_cons.mp h with h | h
      · exact Or.inl h
      · exact Or.inr h
    · rcases List.mem_cons.mp h with h | h
      · exact Or.inr (by simp [h])
      · rcases ih h with h | h
        · exact Or.inl h
        · exact Or.inr (by simp [h])
    · exact Or.inr h

lemma setInsert_perm {α : Type} {lt : α → α → Prop} {a : α} {l : List α}
    (hdec : ∀ b ∈ l, lt a b ∨ lt b a) : (setInsert lt a l).Perm (a :: l) := by
  induction l with
  | nil => simp [setInsert]
  | cons b bs ih =>
    simp only [setInsert]
    by_cases h1 : lt a b
    · rw [if_pos h1]
    · rw [if_neg h1]
      have h2 : lt b a := (hdec b (by simp)).resolve_left h1
      rw [if_pos h2]
      exact ((ih (fun x hx => hdec x (by simp [hx]))).cons b).trans (List.Perm.swap a b bs)

lemma setEraseV_eq_erase {α : Type} [DecidableEq α] {lt : α → α → Prop} {a : α}
    {l : List α} (hirr : ¬ lt a a)
    (heq : ∀ b ∈ l, ¬ lt a b → ¬ lt b a → b = a) :
    setEraseV lt a l = l.erase a := by
  induction l with
  | nil => simp [setEraseV]
  | cons b bs ih =>
    simp only [setEraseV]
    by_cases h1 : ¬ lt a b ∧ ¬ lt b a
    · rw [if_pos h1]
      have hb : b = a := heq b (by simp) h1.1 h1.2
      rw [hb, List.erase_cons_head]
    · rw [if_neg h1]
      have hb : b ≠ a := by
        rintro rfl
        exact h1 ⟨hirr, hirr⟩
      rw [List.erase_cons_tail (by simpa using hb),
        ih (fun x hx h2 h3 => heq x (by simp [hx]) h2 h3)]

lemma setInsert_pairwise {α : Type} {lt : α → α → Prop} {a : α} {l : List α}
    (hl : l.Pairwise lt) (hdec : ∀ b ∈ l, lt a b ∨ lt b a)
    (htr : ∀ x ∈ l, ∀ y ∈ l, lt a x → lt x y → lt a y) :
    (setInsert lt a l).Pairwise lt := by
  induction l with
  | nil => simp [setInsert]
  | cons b bs ih =>
    simp only [setInsert]
    rcases List.pairwise_cons.mp hl with ⟨hb, hbs⟩
    by_cases h1 : lt a b
    · rw [if_pos h1]
      refine List.Pairwise.cons ?_ hl
      intro y hy
      rcases List.mem_cons.mp hy with rfl | hy
      · exact h1
      · exact htr b (by simp) y (by simp [hy]) h1 (hb y hy)
    · rw [if_neg h1]
      have h2 : lt b a := (hdec b (by simp)).resolve_left h1
      rw [if_pos h2]
      refine List.Pairwise.cons ?_
        (ih hbs (fun x hx => hdec x (by simp [hx]))
          (fun x hx y hy => htr x (by simp [hx]) y (by simp [hy])))
      intro y hy
      rcases mem_of_mem_setInsert hy with rfl | hy
      · exact h2
      · exact hb y hy

/-- The iterated drop-last loop is `List.take`. -/
lemma dropLastIter_eq_take {α : Type} (n : ℕ) (s : List α) :
    dropLastIter n s = s.take (s.length - n) := by
  induction n generalizing s with
  | zero => simp [dropLastIter]
  | succ n ih =>
    rw [dropLastIter, ih, List.dropLast_eq_take, List.take_take]
    congr 1
    simp only [List.length_take]
    omega

/-- The topic-set trimming loop keeps the first `k` elements. -/
lemma trimT_eq_take {α : Type} (k : ℕ) (s : List α) : trimT k s = s.take k := by
  unfold trimT
  rw [dropLastIter_eq_take]
  rcases le_or_lt k s.length with h | h
  · congr 1
    omega
  · rw [Nat.sub_eq_zero_of_le h.le, Nat.sub_zero, List.take_length,
      List.take_of_length_le h.le]

lemma trimQIter_qset (n : ℕ) (st : QState) :
    (trimQIter n st).qset = dropLastIter n st.qset := by
  induction n generalizing st with
  | zero => rfl
  | succ n ih => rw [trimQIter, ih, dropLastIter]

/-- The question-set trimming loop keeps the first `k` question ids. -/
lemma trimQ_qset (k : ℕ) (st : QState) : (trimQ k st).qset = st.qset.take k := by
  unfold trimQ
  rw [trimQIter_qset]
  exact trimT_eq_take k st.qset

/-- Effect of the question-set trimming loop on the map: the ids of the
dropped suffix are erased, all other entries survive. -/
lemma trimQIter_cqt (n : ℕ) (st : QState) (hn : n ≤ st.qset.length) (q : ℤ) :
    (trimQIter n st).cqt q =
      if q ∈ st.qset.drop (st.qset.length - n) then none else st.cqt q := by
  induction n generalizing st with
  | zero =>
    simp [trimQIter]
  | succ n ih =>
    rw [trimQIter]
    have hne : st.qset ≠ [] := by
      intro he
      rw [he] at hn
      simp at hn
    have hlen : (st.qset.dropLast).length = st.qset.length - 1 := by
      simp [List.length_dropLast]
    have hgd : st.qset.getLastD 0 = st.qset.getLast hne := by
      rw [List.getLastD_eq_getLast?, List.getLast?_eq_getLast st.qset hne]
      rfl
    have H : st.qset.drop (st.qset.length - (n + 1)) =
        st.qset.dropLast.drop (st.qset.length - 1 - n) ++ [st.qset.getLast hne] := by
      have e0 : st.qset.drop (st.qset.length - (n + 1)) =
          (st.qset.dropLast ++ [st.qset.getLast hne]).drop (st.qset.length - (n + 1)) := by
        rw [List.dropLast_append_getLast hne]
      rw [e0, List.drop_append_of_le_length (by rw [hlen]; omega)]
      congr 2
      omega
    rw [ih ⟨st.qset.dropLast, mapErase st.cqt (st.qset.getLastD 0)⟩
      (by simp only [hlen]; omega)]
    simp only [hlen, hgd, H, mapErase, List.mem_append, List.mem_singleton]
    by_cases hq : q ∈ st.qset.dropLast.drop (st.qset.length - 1 - n)
    · simp [hq]
    · by_cases hq2 : q = st.qset.getLast hne
      · simp [hq, hq2]
      · simp [hq, hq2]

lemma trimQ_cqt (k : ℕ) (st : QState) (q : ℤ) :
    (trimQ k st).cqt q = if q ∈ st.qset.drop k then none else st.cqt q := by
  unfold trimQ
  rw [trimQIter_cqt _ _ (by omega)]
  rcases le_or_lt k st.qset.length with h | h
  · have : st.qset.length - (st.qset.length - k) = k := by omega
    rw [this]
  · have h1 : st.qset.drop (st.qset.length - (st.qset.length - k)) = [] := by
      apply List.drop_eq_nil_of_le
      omega
    have h2 : st.qset.drop k = [] := by
      apply List.drop_eq_nil_of_le
      omega
    rw [h1, h2]

/-! ### The topics held in a tree -/

/-- All topics stored in a (sub)tree, root first, left before right. -/
def topicsOf : Tree → List Topic
  | .nil => []
  | .node t l r => t :: (topicsOf l ++ topicsOf r)

lemma topicsOf_insert_perm (tr : Tree) (depth : ℕ) (t : Topic) :
    (topicsOf (tr.insert depth t)).Perm (t :: topicsOf tr) := by
  induction tr generalizing depth with
  | nil => simp [Tree.insert, topicsOf]
  | node tc l r ihl ihr =>
    rw [Tree.insert]
    by_cases h : t.coordinateAt (depth % 2) < tc.coordinateAt (depth % 2)
    · rw [if_pos h]
      simp only [topicsOf]
      exact (((ihl (depth + 1)).append_right (topicsOf r)).cons tc).trans
        (List.Perm.swap t tc _)
    · rw [if_neg h]
      simp only [topicsOf]
      exact ((((ihr (depth + 1)).append_left (topicsOf l)).trans
        List.perm_middle).cons tc).trans (List.Perm.swap t tc _)

lemma buildTree_foldl_perm (ts : List Topic) (tr : Tree) :
    (topicsOf (ts.foldl Tree.insertTop tr)).Perm (ts ++ topicsOf tr) := by
  induction ts generalizing tr with
  | nil => simp
  | cons t ts ih =>
    simp only [List.foldl_cons, List.cons_append]
    refine (ih (tr.insertTop t)).trans ?_
    refine ((topicsOf_insert_perm tr 0 t).append_left ts).trans ?_
    exact List.perm_middle

/-- The index built from a topic list holds exactly those topics. -/
lemma buildTree_perm (ts : List Topic) : (topicsOf (buildTree ts)).Perm ts := by
  simpa [topicsOf] using buildTree_foldl_perm ts .nil

/-! ### Counting and membership through the topic traversal -/

/-- The far-child pruning test of the topic traversal at a node: the
perpendicular distance from the query to the node's splitting plane is
(raw `<`) smaller than the distance of the worst-kept topic `w`. -/
noncomputable def perpP (pos : ℚ × ℚ) (t : Topic) (depth : ℕ) (w : Topic) : Prop :=
  ((|posAt pos (depth % 2) - t.coordinateAt (depth % 2)| : ℚ) : ℝ) <
    distToQuery pos w.x w.y

/-- The far-child phase of the topic traversal, factored out: recurse when
the set is short, otherwise consult the worst-kept element and the pruning
test. -/
noncomputable def farStep (pos : ℚ × ℚ) (k : ℕ) (B : Tree) (depth : ℕ)
    (P : Topic → Prop) (s2 : List Topic) : List Topic :=
  if s2.length < k then kNNTopics pos k B (depth + 1) s2
  else
    match s2.getLast? with
    | none => s2
    | some w => if P w then kNNTopics pos k B (depth + 1) s2 else s2

/-- The node equation of `kNNTopics` in terms of `farStep`. -/
lemma kNNTopics_node (pos : ℚ × ℚ) (k : ℕ) (t : Topic) (l r : Tree) (depth : ℕ)
    (s : List Topic) :
    kNNTopics pos k (.node t l r) depth s =
      (if posAt pos (depth % 2) < t.coordinateAt (depth % 2) then
        farStep pos k r depth (perpP pos t depth)
          (kNNTopics pos k l (depth + 1) (trimT k (setInsert (topicLT pos) t s)))
      else
        farStep pos k l depth (perpP pos t depth)
          (kNNTopics pos k r (depth + 1) (trimT k (setInsert (topicLT pos) t s)))) :=
  rfl

/-- Combined insert-and-trim step of the topic traversal. -/
lemma insertTrim_spec (pos : ℚ × ℚ) (k : ℕ) (t : Topic) (s : List Topic)
    (hne : ∀ b ∈ s, b.id ≠ t.id) :
    (trimT k (setInsert (topicLT pos) t s)).length = min k (s.length + 1) ∧
    (∀ x ∈ trimT k (setInsert (topicLT pos) t s), x = t ∨ x ∈ s) ∧
    ((s.map Topic.id).Nodup → t.id ∉ s.map Topic.id →
      ((trimT k (setInsert (topicLT pos) t s)).map Topic.id).Nodup) := by
  have hdec : ∀ b ∈ s, topicLT pos t b ∨ topicLT pos b t := by
    intro b hb
    exact @cmpLT_total_of_ne Topic (distOf pos) Topic.id t b
      (fun he => (hne b hb) he.symm)
  have hperm := setInsert_perm hdec
  refine ⟨?_, ?_, ?_⟩
  · rw [trimT_eq_take, List.length_take, hperm.length_eq]
    simp [Nat.add_comm]
  · intro x hx
    rw [trimT_eq_take] at hx
    have := hperm.mem_iff.mp (List.mem_of_mem_take hx)
    simpa using this
  · intro hnd hni
    rw [trimT_eq_take]
    refine List.Nodup.sublist ((List.take_sublist _ _).map _) ?_
    refine (hperm.map Topic.id).nodup_iff.mpr ?_
    simp [hnd, hni]

/-- Topics are pairwise separated for a query position when any two of
their distances to it are exactly equal or differ by more than epsilon: on
such inputs the epsilon comparator is a strict weak order. -/
def PairwiseSeparated (pos : ℚ × ℚ) (u : List Topic) : Prop :=
  ∀ a ∈ u, ∀ b ∈ u, SepKeys (distOf pos a) (distOf pos b)

/-- The insert-and-trim step keeps the topic set sorted by the comparator,
given separated distances and fresh ids. -/
lemma insertTrim_pairwise (pos : ℚ × ℚ) (k : ℕ) (t : Topic) (s u : List Topic)
    (hut : t ∈ u) (hus : ∀ x ∈ s, x ∈ u) (hsep : PairwiseSeparated pos u)
    (hne : ∀ b ∈ s, b.id ≠ t.id) (hp : s.Pairwise (topicLT pos)) :
    (trimT k (setInsert (topicLT pos) t s)).Pairwise (topicLT pos) := by
  have hdec : ∀ b ∈ s, topicLT pos t b ∨ topicLT pos b t := by
    intro b hb
    rw [topicLT_eq_cmpLT]
    exact cmpLT_total_of_ne (fun he => hne b hb he.symm)
  have htr : ∀ x ∈ s, ∀ y ∈ s, topicLT pos t x → topicLT pos x y → topicLT pos t y := by
    intro x hx y hy h1 h2
    rw [topicLT_eq_cmpLT] at h1 h2 ⊢
    exact cmpLT_trans_of_sep (hsep t hut x (hus x hx)) (hsep x (hus x hx) y (hus y hy))
      (hsep t hut y (hus y hy)) h1 h2
  rw [trimT_eq_take]
  exact List.Pairwise.sublist (List.take_sublist _ _) (setInsert_pairwise hp hdec htr)

/-- Specification predicate for the topic traversal: starting from a result
set below capacity whose ids together with the subtree's topic ids are
distinct, the traversal yields `min k (size-so-far + subtree-size)` topics,
all drawn from the initial set or the subtree, with distinct ids; when in
addition all relevant distances are pairwise separated and the initial set
is sorted, the result is sorted by the comparator. -/
def TSpec (pos : ℚ × ℚ) (k : ℕ) (tr : Tree) : Prop :=
  ∀ (depth : ℕ) (s : List Topic),
    ((s ++ topicsOf tr).map Topic.id).Nodup → s.length ≤ k →
    (kNNTopics pos k tr depth s).length = min k (s.length + (topicsOf tr).length) ∧
    (∀ x ∈ kNNTopics pos k tr depth s, x ∈ s ∨ x ∈ topicsOf tr) ∧
    ((kNNTopics pos k tr depth s).map Topic.id).Nodup ∧
    (∀ u : List Topic, (∀ x ∈ s, x ∈ u) → (∀ x ∈ topicsOf tr, x ∈ u) →
      PairwiseSeparated pos u → s.Pairwise (topicLT pos) →
      (kNNTopics pos k tr depth s).Pairwise (topicLT pos))

lemma farStep_spec (pos : ℚ × ℚ) (k : ℕ) {B : Tree} (hB : TSpec pos k B)
    (depth : ℕ) (P : Topic → Prop) (s2 : List Topic)
    (hnd : ((s2 ++ topicsOf B).map Topic.id).Nodup) (hs2 : s2.length ≤ k) :
    (farStep pos k B depth P s2).length = min k (s2.length + (topicsOf B).length) ∧
    (∀ x ∈ farStep pos k B depth P s2, x ∈ s2 ∨ x ∈ topicsOf B) ∧
    ((farStep pos k B depth P s2).map Topic.id).Nodup ∧
    (∀ u : List Topic, (∀ x ∈ s2, x ∈ u) → (∀ x ∈ topicsOf B, x ∈ u) →
      PairwiseSeparated pos u → s2.Pairwise (topicLT pos) →
      (farStep pos k B depth P s2).Pairwise (topicLT pos)) := by
  have hnds2 : (s2.map Topic.id).Nodup :=
    List.Nodup.sublist ((List.sublist_append_left _ _).map _) hnd
  unfold farStep
  by_cases h1 : s2.length < k
  · rw [if_pos h1]
    exact hB (depth + 1) s2 hnd hs2
  · rw [if_neg h1]
    have hk : s2.length = k := le_antisymm hs2 (not_lt.mp h1)
    cases hgl : s2.getLast? with
    | none =>
      have hred : (match (none : Option Topic) with
          | none => s2
          | some w => if P w then kNNTopics pos k B (depth + 1) s2 else s2) = s2 := rfl
      rw [hred]
      exact ⟨by omega, fun x hx => Or.inl hx, hnds2, fun u _ _ _ hp => hp⟩
    | some w =>
      have hred : (match (some w : Option Topic) with
          | none => s2
          | some w => if P w then kNNTopics pos k B (depth + 1) s2 else s2) =
          (if P w then kNNTopics pos k B (depth + 1) s2 else s2) := rfl
      rw [hred]
      by_cases h2 : P w
      · rw [if_pos h2]
        exact hB (depth + 1) s2 hnd hs2
      · rw [if_neg h2]
        exact ⟨by omega, fun x hx => Or.inl hx, hnds2, fun u _ _ _ hp => hp⟩

lemma ids_nodup_append {s1 big rest : List Topic}
    (hsub : ∀ x ∈ s1, x ∈ big) (hnd1 : (s1.map Topic.id).Nodup)
    (hnd : ((big ++ rest).map Topic.id).Nodup) :
    ((s1 ++ rest).map Topic.id).Nodup := by
  rw [List.map_append, List.nodup_append] at *
  refine ⟨hnd1, hnd.2.1, ?_⟩
  intro a ha1 ha2
  obtain ⟨x, hx, rfl⟩ := List.mem_map.mp ha1
  exact hnd.2.2 (List.mem_map.mpr ⟨x, hsub x hx, rfl⟩) ha2

theorem kNNTopics_spec (pos : ℚ × ℚ) (k : ℕ) (tr : Tree) : TSpec pos k tr := by
  induction tr with
  | nil =>
    intro depth s hnd hs
    refine ⟨?_, ?_, ?_, ?_⟩
    · simp only [kNNTopics, topicsOf, List.length_nil, Nat.add_zero]
      omega
    · intro x hx
      exact Or.inl (by simpa [kNNTopics] using hx)
    · simpa [kNNTopics, topicsOf] using hnd
    · intro u _ _ _ hp
      simpa [kNNTopics] using hp
  | node t l r ihl ihr =>
    intro depth s hnd hs
    have hnd0 : ((s ++ (t :: (topicsOf l ++ topicsOf r))).map Topic.id).Nodup := by
      simpa [topicsOf] using hnd
    have hndP : (((t :: s) ++ (topicsOf l ++ topicsOf r)).map Topic.id).Nodup :=
      ((List.perm_middle.map Topic.id).nodup_iff).mp hnd0
    have hnd_s : (s.map Topic.id).Nodup := by
      rw [List.map_append, List.nodup_append] at hnd0
      exact hnd0.1
    have hni : t.id ∉ s.map Topic.id := by
      rw [List.map_append, List.nodup_append] at hnd0
      intro hc
      exact hnd0.2.2 hc (by simp)
    have hne : ∀ b ∈ s, b.id ≠ t.id := by
      intro b hb he
      exact hni (by rw [← he]; exact List.mem_map.mpr ⟨b, hb, rfl⟩)
    obtain ⟨hlen1, hmem1, hnodup1f⟩ := insertTrim_spec pos k t s hne
    have hnodup1 : ((trimT k (setInsert (topicLT pos) t s)).map Topic.id).Nodup :=
      hnodup1f hnd_s hni
    have hs1len : (trimT k (setInsert (topicLT pos) t s)).length ≤ k := by
      rw [hlen1]; omega
    have hsub1 : ∀ x ∈ trimT k (setInsert (topicLT pos) t s), x ∈ t :: s := by
      intro x hx
      rcases hmem1 x hx with h | h
      · simp [h]
      · simp [h]
    rw [kNNTopics_node]
    by_cases hpos : posAt pos (depth % 2) < t.coordinateAt (depth % 2)
    · rw [if_pos hpos]
      -- near child is l, far child is r
      have hnd1l : (((trimT k (setInsert (topicLT pos) t s)) ++
          (topicsOf l ++ topicsOf r)).map Topic.id).Nodup :=
        ids_nodup_append hsub1 hnodup1 hndP
      have hnd1l' : (((trimT k (setInsert (topicLT pos) t s)) ++
          topicsOf l).map Topic.id).Nodup := by
        refine List.Nodup.sublist ?_ hnd1l
        exact (List.Sublist.append_left (List.sublist_append_left _ _) _).map _
      obtain ⟨e1, e2, e3, e4⟩ := ihl (depth + 1) (trimT k (setInsert (topicLT pos) t s))
        hnd1l' hs1len
      have hs2len : (kNNTopics pos k l (depth + 1)
          (trimT k (setInsert (topicLT pos) t s))).length ≤ k := by
        rw [e1]; omega
      have hsub2 : ∀ x ∈ kNNTopics pos k l (depth + 1)
          (trimT k (setInsert (topicLT pos) t s)), x ∈ (t :: s) ++ topicsOf l := by
        intro x hx
        rcases e2 x hx with h | h
        · exact List.mem_append.mpr (Or.inl (hsub1 x h))
        · exact List.mem_append.mpr (Or.inr h)
      have hnd2r : ((kNNTopics pos k l (depth + 1)
          (trimT k (setInsert (topicLT pos) t s)) ++ topicsOf r).map Topic.id).Nodup := by
        refine ids_nodup_append hsub2 e3 ?_
        simpa [List.append_assoc] using hndP
      obtain ⟨f1, f2, f3, f4⟩ :=
        farStep_spec pos k ihr depth (perpP pos t depth) _ hnd2r hs2len
      refine ⟨?_, ?_, f3, ?_⟩
      · rw [f1, e1, hlen1]
        simp only [topicsOf, List.length_cons, List.length_append]
        omega
      · intro x hx
        rcases f2 x hx with h | h
        · rcases e2 x h with h2 | h2
          · rcases hmem1 x h2 with h3 | h3
            · exact Or.inr (by simp [topicsOf, h3])
            · exact Or.inl h3
          · exact Or.inr (by simp [topicsOf, h2])
        · exact Or.inr (by simp [topicsOf, h])
      · intro u hus hutr hsep hps
        have hut : t ∈ u := hutr t (by simp [topicsOf])
        have hus1 : ∀ x ∈ trimT k (setInsert (topicLT pos) t s), x ∈ u := by
          intro x hx
          rcases hmem1 x hx with h | h
          · exact h ▸ hut
          · exact hus x h
        have hul : ∀ x ∈ topicsOf l, x ∈ u := by
          intro x hx
          exact hutr x (by simp [topicsOf, hx])
        have hur : ∀ x ∈ topicsOf r, x ∈ u := by
          intro x hx
          exact hutr x (by simp [topicsOf, hx])
        have hp1 := insertTrim_pairwise pos k t s u hut hus hsep hne hps
        have hp2 := e4 u hus1 hul hsep hp1
        have hus2 : ∀ x ∈ kNNTopics pos k l (depth + 1)
            (trimT k (setInsert (topicLT pos) t s)), x ∈ u := by
          intro x hx
          rcases e2 x hx with h | h
          · exact hus1 x h
          · exact hul x h
        exact f4 u hus2 hur hsep hp2
    · rw [if_neg hpos]
      -- near child is r, far child is l
      have hndP' : (((t :: s) ++ (topicsOf r ++ topicsOf l)).map Topic.id).Nodup := by
        refine (((List.perm_append_comm).append_left (t :: s)).map Topic.id).nodup_iff.mp ?_
        exact hndP
      have hnd1r : (((trimT k (setInsert (topicLT pos) t s)) ++
          (topicsOf r ++ topicsOf l)).map Topic.id).Nodup :=
        ids_nodup_append hsub1 hnodup1 hndP'
      have hnd1r' : (((trimT k (setInsert (topicLT pos) t s)) ++
          topicsOf r).map Topic.id).Nodup := by
        refine List.Nodup.sublist ?_ hnd1r
        exact (List.Sublist.append_left (List.sublist_append_left _ _) _).map _
      obtain ⟨e1, e2, e3, e4⟩ := ihr (depth + 1) (trimT k (setInsert (topicLT pos) t s))
        hnd1r' hs1len
      have hs2len : (kNNTopics pos k r (depth + 1)
          (trimT k (setInsert (topicLT pos) t s))).length ≤ k := by
        rw [e1]; omega
      have hsub2 : ∀ x ∈ kNNTopics pos k r (depth + 1)
          (trimT k (setInsert (topicLT pos) t s)), x ∈ (t :: s) ++ topicsOf r := by
        intro x hx
        rcases e2 x hx with h | h
        · exact List.mem_append.mpr (Or.inl (hsub1 x h))
        · exact List.mem_append.mpr (Or.inr h)
      have hnd2l : ((kNNTopics pos k r (depth + 1)
          (trimT k (setInsert (topicLT pos) t s)) ++ topicsOf l).map Topic.id).Nodup := by
        refine ids_nodup_append hsub2 e3 ?_
        simpa [List.append_assoc] using hndP'
      obtain ⟨f1, f2, f3, f4⟩ :=
        farStep_spec pos k ihl depth (perpP pos t depth) _ hnd2l hs2len
      refine ⟨?_, ?_, f3, ?_⟩
      · rw [f1, e1, hlen1]
        simp only [topicsOf, List.length_cons, List.length_append]
        omega
      · intro x hx
        rcases f2 x hx with h | h
        · rcases e2 x h with h2 | h2
          · rcases hmem1 x h2 with h3 | h3
            · exact Or.inr (by simp [topicsOf, h3])
            · exact Or.inl h3
          · exact Or.inr (by simp [topicsOf, h2])
        · exact Or.inr (by simp [topicsOf, h])
      · intro u hus hutr hsep hps
        have hut : t ∈ u := hutr t (by simp [topicsOf])
        have hus1 : ∀ x ∈ trimT k (setInsert (topicLT pos) t s), x ∈ u := by
          intro x hx
          rcases hmem1 x hx with h | h
          · exact h ▸ hut
          · exact hus x h
        have hul : ∀ x ∈ topicsOf l, x ∈ u := by
          intro x hx
          exact hutr x (by simp [topicsOf, hx])
        have hur : ∀ x ∈ topicsOf r, x ∈ u := by
          intro x hx
          exact hutr x (by simp [topicsOf, hx])
        have hp1 := insertTrim_pairwise pos k t s u hut hus hsep hne hps
        have hp2 := e4 u hus1 hur hsep hp1
        have hus2 : ∀ x ∈ kNNTopics pos k r (depth + 1)
            (trimT k (setInsert (topicLT pos) t s)), x ∈ u := by
          intro x hx
          rcases e2 x hx with h | h
          · exact hus1 x h
          · exact hur x h
        exact f4 u hus2 hul hsep hp2

/-! ### Question-query state invariants -/

/-- All question ids hanging off a list of topics. -/
def qIdsOf (l : List Topic) : Finset ℤ := ((l.map Topic.questionIds).flatten).toFinset

/-- The core state invariant of a question query: the ids in the bounded
question result set are exactly the keys of the `closestQuestionTopic` map,
and the result set holds no duplicates. -/
def QSetInv (st : QState) : Prop :=
  (∀ q : ℤ, q ∈ st.qset ↔ (st.cqt q).isSome) ∧ st.qset.Nodup

/-- Every topic recorded in the map belongs to the registry list `ts`. -/
def MappedIn (ts : List Topic) (reg : TopicReg) (st : QState) : Prop :=
  ∀ q v : ℤ, st.cqt q = some v → reg v ∈ ts

lemma questionLT_congr (pos : ℚ × ℚ) (reg : TopicReg) {m m1 : ℤ → Option ℤ}
    {a b : ℤ} (h1 : m a = m1 a) (h2 : m b = m1 b) :
    questionLT pos reg m a b ↔ questionLT pos reg m1 a b := by
  unfold questionLT
  rw [h1, h2]

lemma mapInsert_ne (m : ℤ → Option ℤ) (k v : ℤ) {q : ℤ} (h : q ≠ k) :
    mapInsert m k v q = m q := by
  simp [mapInsert, h]

lemma mapInsert_self (m : ℤ → Option ℤ) (k v : ℤ) : mapInsert m k v k = some v := by
  simp [mapInsert]

/-- Characterization of the per-question loop body: the question's id joins
the id set (a no-op when already present and not improved), the map gains at
most the binding to the visited topic, and the key-set/duplicate-freedom
invariant is preserved; under pairwise-separated distances the set also
stays sorted by the comparator at the updated map. -/
lemma processQuestion_base (pos : ℚ × ℚ) (reg : TopicReg) (ts : List Topic)
    (curId : ℤ) (st : QState) (qi : ℤ) (h : QSetInv st) :
    QSetInv (processQuestion pos reg curId st qi) ∧
    (processQuestion pos reg curId st qi).qset.toFinset = insert qi st.qset.toFinset ∧
    (∀ q v : ℤ, (processQuestion pos reg curId st qi).cqt q = some v →
      st.cqt q = some v ∨ v = curId) ∧
    (reg curId ∈ ts → PairwiseSeparated pos ts → MappedIn ts reg st →
      st.qset.Pairwise (questionLT pos reg st.cqt) →
      (processQuestion pos reg curId st qi).qset.Pairwise
        (questionLT pos reg (processQuestion pos reg curId st qi).cqt)) := by
  obtain ⟨hmem, hnd⟩ := h
  cases hc : st.cqt qi with
  | none =>
    have hred : processQuestion pos reg curId st qi =
        ⟨setInsert (questionLT pos reg (mapInsert st.cqt qi curId)) qi st.qset,
          mapInsert st.cqt qi curId⟩ := by
      unfold processQuestion
      rw [hc]
    have hredq : (processQuestion pos reg curId st qi).qset =
        setInsert (questionLT pos reg (mapInsert st.cqt qi curId)) qi st.qset := by
      rw [hred]
    have hredm : (processQuestion pos reg curId st qi).cqt =
        mapInsert st.cqt qi curId := by
      rw [hred]
    rw [hredq, hredm]
    have hqi : qi ∉ st.qset := by
      rw [hmem]
      simp [hc]
    have hdec : ∀ b ∈ st.qset,
        questionLT pos reg (mapInsert st.cqt qi curId) qi b ∨
        questionLT pos reg (mapInsert st.cqt qi curId) b qi := by
      intro b hb
      rw [questionLT_eq_cmpLT]
      exact cmpLT_total_of_ne (fun he => hqi (by simpa [he] using hb))
    have hperm := setInsert_perm hdec
    refine ⟨⟨?_, ?_⟩, ?_, ?_, ?_⟩
    · intro q
      rw [hredq, hredm, hperm.mem_iff]
      simp only [List.mem_cons, hmem]
      constructor
      · rintro (rfl | hq)
        · simp [mapInsert]
        · rcases eq_or_ne q qi with rfl | hne
          · simp [mapInsert]
          · rwa [mapInsert_ne _ _ _ hne]
      · intro hq
        rcases eq_or_ne q qi with rfl | hne
        · exact Or.inl rfl
        · rw [mapInsert_ne _ _ _ hne] at hq
          exact Or.inr hq
    · rw [hredq]
      exact hperm.nodup_iff.mpr (List.nodup_cons.mpr ⟨hqi, hnd⟩)
    · rw [List.toFinset_eq_of_perm _ _ hperm]
      simp
    · intro q v hv
      replace hv : mapInsert st.cqt qi curId q = some v := hv
      rcases eq_or_ne q qi with rfl | hne
      · rw [mapInsert_self] at hv
        exact Or.inr (by injection hv; omega)
      · rw [mapInsert_ne _ _ _ hne] at hv
        exact Or.inl hv
    · intro hcur hsep hmapin hp
      have hp1 : st.qset.Pairwise (questionLT pos reg (mapInsert st.cqt qi curId)) := by
        refine hp.imp_of_mem ?_
        intro a b ha hb hab
        rw [← questionLT_congr pos reg (mapInsert_ne _ _ _ (by rintro rfl; exact hqi ha)).symm
          (mapInsert_ne _ _ _ (by rintro rfl; exact hqi hb)).symm]
        exact hab
      refine setInsert_pairwise hp1 hdec ?_
      intro x hx y hy h1 h2
      rw [questionLT_eq_cmpLT] at h1 h2 ⊢
      have hsx : reg ((mapInsert st.cqt qi curId x).getD 0) ∈ ts := by
        rw [mapInsert_ne _ _ _ (by rintro rfl; exact hqi hx)]
        obtain ⟨v, hv⟩ := Option.isSome_iff_exists.mp ((hmem x).mp hx)
        rw [hv]
        exact hmapin x v hv
      have hsy : reg ((mapInsert st.cqt qi curId y).getD 0) ∈ ts := by
        rw [mapInsert_ne _ _ _ (by rintro rfl; exact hqi hy)]
        obtain ⟨v, hv⟩ := Option.isSome_iff_exists.mp ((hmem y).mp hy)
        rw [hv]
        exact hmapin y v hv
      have hsq : reg ((mapInsert st.cqt qi curId qi).getD 0) ∈ ts := by
        rw [mapInsert_self]
        exact hcur
      exact cmpLT_trans_of_sep (hsep _ hsq _ hsx) (hsep _ hsx _ hsy) (hsep _ hsq _ hsy) h1 h2
  | some topicId =>
    have hred : processQuestion pos reg curId st qi =
        (if compareDouble (distToQuery pos (reg topicId).x (reg topicId).y)
            (distToQuery pos (reg curId).x (reg curId).y) ∨
            (|distToQuery pos (reg topicId).x (reg topicId).y -
                distToQuery pos (reg curId).x (reg curId).y| ≤ EPSILON ∧ curId > topicId)
          then ⟨setInsert (questionLT pos reg (mapInsert st.cqt qi curId)) qi
              (setEraseV (questionLT pos reg st.cqt) qi st.qset),
            mapInsert st.cqt qi curId⟩
          else st) := by
      unfold processQuestion
      rw [hc]
    by_cases hcond : compareDouble (distToQuery pos (reg topicId).x (reg topicId).y)
        (distToQuery pos (reg curId).x (reg curId).y) ∨
        (|distToQuery pos (reg topicId).x (reg topicId).y -
            distToQuery pos (reg curId).x (reg curId).y| ≤ EPSILON ∧ curId > topicId)
    · have hredq : (processQuestion pos reg curId st qi).qset =
          setInsert (questionLT pos reg (mapInsert st.cqt qi curId)) qi
            (setEraseV (questionLT pos reg st.cqt) qi st.qset) := by
        rw [hred, if_pos hcond]
      have hredm : (processQuestion pos reg curId st qi).cqt =
          mapInsert st.cqt qi curId := by
        rw [hred, if_pos hcond]
      rw [hredq, hredm]
      have hqi : qi ∈ st.qset := by
        rw [hmem, hc]
        rfl
      have herase : setEraseV (questionLT pos reg st.cqt) qi st.qset = st.qset.erase qi := by
        refine setEraseV_eq_erase ?_ ?_
        · rw [questionLT_eq_cmpLT]
          exact cmpLT_irrefl _ _ qi
        · intro b _ h1 h2
          rw [questionLT_eq_cmpLT] at h1 h2
          exact cmpLT_equiv_id h2 h1
      rw [herase]
      have hqinotin : qi ∉ st.qset.erase qi := fun hc2 =>
        ((List.Nodup.mem_erase_iff hnd).mp hc2).1 rfl
      have hdec : ∀ b ∈ st.qset.erase qi,
          questionLT pos reg (mapInsert st.cqt qi curId) qi b ∨
          questionLT pos reg (mapInsert st.cqt qi curId) b qi := by
        intro b hb
        rw [questionLT_eq_cmpLT]
        exact cmpLT_total_of_ne (fun he => hqinotin (by simpa [he] using hb))
      have hperm := setInsert_perm hdec
      have hperm2 : (setInsert (questionLT pos reg (mapInsert st.cqt qi curId)) qi
          (st.qset.erase qi)).Perm st.qset :=
        hperm.trans (List.perm_cons_erase hqi).symm
      refine ⟨⟨?_, ?_⟩, ?_, ?_, ?_⟩
      · intro q
        rw [hredq, hredm, herase, hperm2.mem_iff]
        rcases eq_or_ne q qi with rfl | hne
        · simp [hqi, mapInsert]
        · rw [mapInsert_ne _ _ _ hne]
          exact hmem q
      · rw [hredq, herase]
        exact hperm2.nodup_iff.mpr hnd
      · rw [List.toFinset_eq_of_perm _ _ hperm2]
        exact (Finset.insert_eq_self.mpr (by simpa using hqi)).symm
      · intro q v hv
        replace hv : mapInsert st.cqt qi curId q = some v := hv
        rcases eq_or_ne q qi with rfl | hne
        · rw [mapInsert_self] at hv
          exact Or.inr (by injection hv; omega)
        · rw [mapInsert_ne _ _ _ hne] at hv
          exact Or.inl hv
      · intro hcur hsep hmapin hp
        have hpe : (st.qset.erase qi).Pairwise (questionLT pos reg st.cqt) :=
          hp.sublist (st.qset.erase_sublist qi)
        have hp1 : (st.qset.erase qi).Pairwise
            (questionLT pos reg (mapInsert st.cqt qi curId)) := by
          refine hpe.imp_of_mem ?_
          intro a b ha hb hab
          rw [← questionLT_congr pos reg
            (mapInsert_ne _ _ _ (by rintro rfl; exact hqinotin ha)).symm
            (mapInsert_ne _ _ _ (by rintro rfl; exact hqinotin hb)).symm]
          exact hab
        refine setInsert_pairwise hp1 hdec ?_
        intro x hx y hy h1 h2
        rw [questionLT_eq_cmpLT] at h1 h2 ⊢
        have hmx : x ∈ st.qset := ((List.Nodup.mem_erase_iff hnd).mp hx).2
        have hmy : y ∈ st.qset := ((List.Nodup.mem_erase_iff hnd).mp hy).2
        have hsx : reg ((mapInsert st.cqt qi curId x).getD 0) ∈ ts := by
          rw [mapInsert_ne _ _ _ (by rintro rfl; exact hqinotin hx)]
          obtain ⟨v, hv⟩ := Option.isSome_iff_exists.mp ((hmem x).mp hmx)
          rw [hv]
          exact hmapin x v hv
        have hsy : reg ((mapInsert st.cqt qi curId y).getD 0) ∈ ts := by
          rw [mapInsert_ne _ _ _ (by rintro rfl; exact hqinotin hy)]
          obtain ⟨v, hv⟩ := Option.isSome_iff_exists.mp ((hmem y).mp hmy)
          rw [hv]
          exact hmapin y v hv
        have hsq : reg ((mapInsert st.cqt qi curId qi).getD 0) ∈ ts := by
          rw [mapInsert_self]
          exact hcur
        exact cmpLT_trans_of_sep (hsep _ hsq _ hsx) (hsep _ hsx _ hsy)
          (hsep _ hsq _ hsy) h1 h2
    · have hredq : (processQuestion pos reg curId st qi).qset = st.qset := by
        rw [hred, if_neg hcond]
      have hredm : (processQuestion pos reg curId st qi).cqt = st.cqt := by
        rw [hred, if_neg hcond]
      rw [hredq, hredm]
      have hqi : qi ∈ st.qset := by
        rw [hmem, hc]
        rfl
      refine ⟨⟨?_, ?_⟩, (Finset.insert_eq_self.mpr (by simpa using hqi)).symm,
        fun q v hv => Or.inl hv, fun _ _ _ hp => hp⟩
      · intro q
        rw [hredq, hredm]
        exact hmem q
      · rw [hredq]
        exact hnd

/-- Characterization of the whole per-question loop at a node
(a left fold of the loop body over a list of question ids). -/
lemma processQuestions_fold (pos : ℚ × ℚ) (reg : TopicReg) (ts : List Topic)
    (curId : ℤ) (qs : List ℤ) :
    ∀ st : QState, QSetInv st →
    QSetInv (qs.foldl (processQuestion pos reg curId) st) ∧
    (qs.foldl (processQuestion pos reg curId) st).qset.toFinset =
      st.qset.toFinset ∪ qs.toFinset ∧
    (∀ q v : ℤ, (qs.foldl (processQuestion pos reg curId) st).cqt q = some v →
      st.cqt q = some v ∨ v = curId) ∧
    (reg curId ∈ ts → PairwiseSeparated pos ts → MappedIn ts reg st →
      st.qset.Pairwise (questionLT pos reg st.cqt) →
      (qs.foldl (processQuestion pos reg curId) st).qset.Pairwise
        (questionLT pos reg (qs.foldl (processQuestion pos reg curId) st).cqt)) := by
  induction qs with
  | nil =>
    intro st h
    exact ⟨h, by simp, fun q v hv => Or.inl hv, fun _ _ _ hp => hp⟩
  | cons qi qs ih =>
    intro st h
    obtain ⟨b1, b2, b3, b4⟩ := processQuestion_base pos reg ts curId st qi h
    obtain ⟨i1, i2, i3, i4⟩ := ih (processQuestion pos reg curId st qi) b1
    rw [List.foldl_cons]
    refine ⟨i1, ?_, ?_, ?_⟩
    · rw [i2, b2, List.toFinset_cons]
      rw [Finset.insert_union, Finset.union_comm, Finset.union_insert, Finset.union_comm]
    · intro q v hv
      rcases i3 q v hv with hv2 | hv2
      · exact b3 q v hv2
      · exact Or.inr hv2
    · intro hcur hsep hmapin hp
      refine i4 hcur hsep ?_ (b4 hcur hsep hmapin hp)
      intro q v hv
      rcases b3 q v hv with hv2 | hv2
      · exact hmapin q v hv2
      · rw [hv2]
        exact hcur

/-- Characterization of one complete per-node step of the question traversal:
process all the visited topic's questions, then trim to `k` evicting the
worst questions and their map entries. -/
lemma nodeStepQ_spec (pos : ℚ × ℚ) (reg : TopicReg) (ts : List Topic)
    (curId : ℤ) (k : ℕ) (st : QState) (h : QSetInv st) (hk : st.qset.length ≤ k) :
    QSetInv (trimQ k (processQuestions pos reg curId st)) ∧
    (trimQ k (processQuestions pos reg curId st)).qset.length =
      min k (st.qset.toFinset ∪ (reg curId).questionIds.toFinset).card ∧
    st.qset.length ≤ (trimQ k (processQuestions pos reg curId st)).qset.length ∧
    (trimQ k (processQuestions pos reg curId st)).qset.toFinset ⊆
      st.qset.toFinset ∪ (reg curId).questionIds.toFinset ∧
    ((trimQ k (processQuestions pos reg curId st)).qset.length < k →
      (trimQ k (processQuestions pos reg curId st)).qset.toFinset =
        st.qset.toFinset ∪ (reg curId).questionIds.toFinset) ∧
    (∀ q v : ℤ, (trimQ k (processQuestions pos reg curId st)).cqt q = some v →
      st.cqt q = some v ∨ v = curId) ∧
    (reg curId ∈ ts → PairwiseSeparated pos ts → MappedIn ts reg st →
      st.qset.Pairwise (questionLT pos reg st.cqt) →
      (trimQ k (processQuestions pos reg curId st)).qset.Pairwise
        (questionLT pos reg (trimQ k (processQuestions pos reg curId st)).cqt)) := by
  obtain ⟨f1, f2, f3, f4⟩ := processQuestions_fold pos reg ts curId
    (reg curId).questionIds st h
  rw [show (reg curId).questionIds.foldl (processQuestion pos reg curId) st =
    processQuestions pos reg curId st from rfl] at f1 f2 f3 f4
  set m := processQuestions pos reg curId st with hm
  obtain ⟨fmem, fnd⟩ := f1
  have hqset : (trimQ k m).qset = m.qset.take k := trimQ_qset k m
  have hcqt : ∀ q, (trimQ k m).cqt q = if q ∈ m.qset.drop k then none else m.cqt q :=
    trimQ_cqt k m
  have hcard : m.qset.toFinset.card = m.qset.length := List.toFinset_card_of_nodup fnd
  have hdisj : ∀ q ∈ m.qset.take k, q ∉ m.qset.drop k := by
    have hnd2 : (m.qset.take k ++ m.qset.drop k).Nodup := by
      rw [List.take_append_drop]
      exact fnd
    rw [List.nodup_append] at hnd2
    exact hnd2.2.2
  have hlen : (trimQ k m).qset.length = min k (st.qset.toFinset ∪
      (reg curId).questionIds.toFinset).card := by
    rw [hqset, List.length_take, ← f2, hcard]
  have hmemtake : ∀ q, q ∈ (trimQ k m).qset ↔ ((trimQ k m).cqt q).isSome := by
    intro q
    rw [hqset, hcqt q]
    constructor
    · intro hq
      rw [if_neg (hdisj q hq)]
      exact (fmem q).mp (List.mem_of_mem_take hq)
    · intro hq
      by_cases hdq : q ∈ m.qset.drop k
      · rw [if_pos hdq] at hq
        simp at hq
      · rw [if_neg hdq] at hq
        have hqm : q ∈ m.qset := (fmem q).mpr hq
        rcases (List.mem_append.mp (by rw [List.take_append_drop]; exact hqm :
          q ∈ m.qset.take k ++ m.qset.drop k)) with h2 | h2
        · exact h2
        · exact absurd h2 hdq
  refine ⟨⟨hmemtake, by rw [hqset]; exact fnd.sublist (List.take_sublist _ _)⟩,
    hlen, ?_, ?_, ?_, ?_, ?_⟩
  · rw [hlen]
    have h1 : st.qset.toFinset.card ≤ (st.qset.toFinset ∪
        (reg curId).questionIds.toFinset).card :=
      Finset.card_le_card (Finset.subset_union_left)
    have h2 : st.qset.toFinset.card = st.qset.length :=
      List.toFinset_card_of_nodup h.2
    omega
  · intro q hq
    rw [← f2]
    rw [hqset] at hq
    simp only [List.mem_toFinset] at *
    exact List.mem_of_mem_take hq
  · intro hlt
    rw [hlen] at hlt
    have hshort : m.qset.length ≤ k := by
      rw [← hcard, f2]
      omega
    rw [hqset, List.take_of_length_le hshort, f2]
  · intro q v hv
    rw [hcqt q] at hv
    by_cases hdq : q ∈ m.qset.drop k
    · rw [if_pos hdq] at hv
      exact absurd hv (by simp)
    · rw [if_neg hdq] at hv
      exact f3 q v hv
  · intro hcur hsep hmapin hp
    have hpm := f4 hcur hsep hmapin hp
    have hpt : (m.qset.take k).Pairwise (questionLT pos reg m.cqt) :=
      hpm.sublist (List.take_sublist _ _)
    rw [hqset]
    refine hpt.imp_of_mem ?_
    intro a b ha hb hab
    have e1 : (trimQ k m).cqt a = m.cqt a := by
      rw [hcqt a, if_neg (hdisj a ha)]
    have e2 : (trimQ k m).cqt b = m.cqt b := by
      rw [hcqt b, if_neg (hdisj b hb)]
    exact (questionLT_congr pos reg e1.symm e2.symm).mp hab


lemma qIdsOf_node (t : Topic) (l r : Tree) :
    qIdsOf (topicsOf (.node t l r)) =
      t.questionIds.toFinset ∪ (qIdsOf (topicsOf l) ∪ qIdsOf (topicsOf r)) := by
  simp [qIdsOf, topicsOf, List.toFinset_append]

/-- The far-child phase of the question traversal, factored out: recurse when
the set is short, otherwise compare the perpendicular splitting-plane
distance against the distance of the worst-kept question's recorded best
topic. -/
noncomputable def farStepQ (pos : ℚ × ℚ) (reg : TopicReg) (k : ℕ) (B : Tree)
    (t : Topic) (depth : ℕ) (st2 : QState) : QState :=
  if st2.qset.length < k then kNNQuestions pos reg k B (depth + 1) st2
  else
    match st2.qset.getLast? with
    | none => st2
    | some w =>
      let ct := reg ((st2.cqt w).getD 0)
      if ((|posAt pos (depth % 2) - t.coordinateAt (depth % 2)| : ℚ) : ℝ) <
          distToQuery pos ct.x ct.y then
        kNNQuestions pos reg k B (depth + 1) st2
      else st2

/-- The node equation of `kNNQuestions` in terms of `farStepQ`. -/
lemma kNNQuestions_node (pos : ℚ × ℚ) (reg : TopicReg) (k : ℕ) (t : Topic)
    (l r : Tree) (depth : ℕ) (st : QState) :
    kNNQuestions pos reg k (.node t l r) depth st =
      (if posAt pos (depth % 2) < t.coordinateAt (depth % 2) then
        farStepQ pos reg k r t depth (kNNQuestions pos reg k l (depth + 1)
          (trimQ k (processQuestions pos reg t.id st)))
      else
        farStepQ pos reg k l t depth (kNNQuestions pos reg k r (depth + 1)
          (trimQ k (processQuestions pos reg t.id st)))) :=
  rfl

/-- Specification predicate for the question traversal: the key-set
invariant is preserved, the result set grows to `min k` of the number of
distinct reachable questions, only reachable questions appear, a short
result set means every reachable question is present, map entries only ever
point at visited topics, and (under pairwise-separated distances) the result
set stays sorted by the comparator at the final map. -/
def QSpec (pos : ℚ × ℚ) (reg : TopicReg) (ts : List Topic) (k : ℕ) (tr : Tree) : Prop :=
  ∀ (depth : ℕ) (st : QState),
    (∀ x ∈ topicsOf tr, x ∈ ts ∧ reg x.id = x) →
    QSetInv st → st.qset.length ≤ k →
    QSetInv (kNNQuestions pos reg k tr depth st) ∧
    (kNNQuestions pos reg k tr depth st).qset.length =
      min k (st.qset.toFinset ∪ qIdsOf (topicsOf tr)).card ∧
    st.qset.length ≤ (kNNQuestions pos reg k tr depth st).qset.length ∧
    (kNNQuestions pos reg k tr depth st).qset.toFinset ⊆
      st.qset.toFinset ∪ qIdsOf (topicsOf tr) ∧
    ((kNNQuestions pos reg k tr depth st).qset.length < k →
      (kNNQuestions pos reg k tr depth st).qset.toFinset =
        st.qset.toFinset ∪ qIdsOf (topicsOf tr)) ∧
    (∀ q v : ℤ, (kNNQuestions pos reg k tr depth st).cqt q = some v →
      st.cqt q = some v ∨ ∃ x ∈ topicsOf tr, v = x.id) ∧
    (PairwiseSeparated pos ts → MappedIn ts reg st →
      st.qset.Pairwise (questionLT pos reg st.cqt) →
      MappedIn ts reg (kNNQuestions pos reg k tr depth st) ∧
      (kNNQuestions pos reg k tr depth st).qset.Pairwise
        (questionLT pos reg (kNNQuestions pos reg k tr depth st).cqt))

lemma farStepQ_spec (pos : ℚ × ℚ) (reg : TopicReg) (ts : List Topic) (k : ℕ)
    {B : Tree} (hB : QSpec pos reg ts k B) (t : Topic) (depth : ℕ) (st2 : QState)
    (htsB : ∀ x ∈ topicsOf B, x ∈ ts ∧ reg x.id = x)
    (h2 : QSetInv st2) (hk2 : st2.qset.length ≤ k) :
    QSetInv (farStepQ pos reg k B t depth st2) ∧
    (farStepQ pos reg k B t depth st2).qset.length =
      min k (st2.qset.toFinset ∪ qIdsOf (topicsOf B)).card ∧
    st2.qset.length ≤ (farStepQ pos reg k B t depth st2).qset.length ∧
    (farStepQ pos reg k B t depth st2).qset.toFinset ⊆
      st2.qset.toFinset ∪ qIdsOf (topicsOf B) ∧
    ((farStepQ pos reg k B t depth st2).qset.length < k →
      (farStepQ pos reg k B t depth st2).qset.toFinset =
        st2.qset.toFinset ∪ qIdsOf (topicsOf B)) ∧
    (∀ q v : ℤ, (farStepQ pos reg k B t depth st2).cqt q = some v →
      st2.cqt q = some v ∨ ∃ x ∈ topicsOf B, v = x.id) ∧
    (PairwiseSeparated pos ts → MappedIn ts reg st2 →
      st2.qset.Pairwise (questionLT pos reg st2.cqt) →
      MappedIn ts reg (farStepQ pos reg k B t depth st2) ∧
      (farStepQ pos reg k B t depth st2).qset.Pairwise
        (questionLT pos reg (farStepQ pos reg k B t depth st2).cqt)) := by
  have hcard2 : st2.qset.toFinset.card = st2.qset.length :=
    List.toFinset_card_of_nodup h2.2
  have hstay : st2.qset.length = k →
      st2.qset.length = min k (st2.qset.toFinset ∪ qIdsOf (topicsOf B)).card := by
    intro hlen
    have hk3 : k ≤ (st2.qset.toFinset ∪ qIdsOf (topicsOf B)).card := by
      calc k = st2.qset.toFinset.card := by omega
      _ ≤ _ := Finset.card_le_card Finset.subset_union_left
    omega
  unfold farStepQ
  by_cases hb1 : st2.qset.length < k
  · rw [if_pos hb1]
    exact hB (depth + 1) st2 htsB h2 hk2
  · rw [if_neg hb1]
    have hlen : st2.qset.length = k := le_antisymm hk2 (not_lt.mp hb1)
    cases hgl : st2.qset.getLast? with
    | none =>
      have hred : (match (none : Option ℤ) with
          | none => st2
          | some w =>
            let ct := reg ((st2.cqt w).getD 0)
            if ((|posAt pos (depth % 2) - t.coordinateAt (depth % 2)| : ℚ) : ℝ) <
                distToQuery pos ct.x ct.y then
              kNNQuestions pos reg k B (depth + 1) st2
            else st2) = st2 := rfl
      rw [hred]
      exact ⟨h2, hstay hlen, le_refl _, Finset.subset_union_left,
        fun hc => absurd hc (by omega), fun q v hv => Or.inl hv,
        fun _ hm hp => ⟨hm, hp⟩⟩
    | some w =>
      have hred : (match (some w : Option ℤ) with
          | none => st2
          | some w =>
            let ct := reg ((st2.cqt w).getD 0)
            if ((|posAt pos (depth % 2) - t.coordinateAt (depth % 2)| : ℚ) : ℝ) <
                distToQuery pos ct.x ct.y then
              kNNQuestions pos reg k B (depth + 1) st2
            else st2) =
          (if ((|posAt pos (depth % 2) - t.coordinateAt (depth % 2)| : ℚ) : ℝ) <
              distToQuery pos (reg ((st2.cqt w).getD 0)).x
                (reg ((st2.cqt w).getD 0)).y then
            kNNQuestions pos reg k B (depth + 1) st2
          else st2) := rfl
      rw [hred]
      by_cases hb2 : ((|posAt pos (depth % 2) - t.coordinateAt (depth % 2)| : ℚ) : ℝ) <
          distToQuery pos (reg ((st2.cqt w).getD 0)).x (reg ((st2.cqt w).getD 0)).y
      · rw [if_pos hb2]
        exact hB (depth + 1) st2 htsB h2 hk2
      · rw [if_neg hb2]
        exact ⟨h2, hstay hlen, le_refl _, Finset.subset_union_left,
          fun hc => absurd hc (by omega), fun q v hv => Or.inl hv,
          fun _ hm hp => ⟨hm, hp⟩⟩

lemma union_shuffleL (A B C D : Finset ℤ) : ((A ∪ B) ∪ C) ∪ D = A ∪ (B ∪ (C ∪ D)) := by
  rw [Finset.union_assoc, Finset.union_assoc]

lemma union_shuffleR (A B C D : Finset ℤ) : ((A ∪ B) ∪ D) ∪ C = A ∪ (B ∪ (C ∪ D)) := by
  rw [Finset.union_assoc, Finset.union_assoc, Finset.union_comm D C]

set_option maxHeartbeats 1600000 in
theorem kNNQuestions_spec (pos : ℚ × ℚ) (reg : TopicReg) (ts : List Topic) (k : ℕ)
    (tr : Tree) : QSpec pos reg ts k tr := by
  induction tr with
  | nil =>
    intro depth st _ hinv hk
    have hred : kNNQuestions pos reg k .nil depth st = st := rfl
    rw [hred]
    have hcard : st.qset.toFinset.card = st.qset.length :=
      List.toFinset_card_of_nodup hinv.2
    refine ⟨hinv, ?_, le_refl _, ?_, ?_, fun q v hv => Or.inl hv,
      fun _ hm hp => ⟨hm, hp⟩⟩
    · simp only [topicsOf, qIdsOf, List.map_nil, List.flatten_nil, List.toFinset_nil,
        Finset.union_empty]
      omega
    · simp [topicsOf, qIdsOf]
    · intro _
      simp [topicsOf, qIdsOf]
  | node t l r ihl ihr =>
    intro depth st hts hinv hk
    have hmem_t : t ∈ topicsOf (Tree.node t l r) := by simp [topicsOf]
    have hreg_t : reg t.id = t := (hts t hmem_t).2
    have hts_t : t ∈ ts := (hts t hmem_t).1
    have htsl : ∀ x ∈ topicsOf l, x ∈ ts ∧ reg x.id = x := by
      intro x hx
      exact hts x (by simp [topicsOf, hx])
    have htsr : ∀ x ∈ topicsOf r, x ∈ ts ∧ reg x.id = x := by
      intro x hx
      exact hts x (by simp [topicsOf, hx])
    obtain ⟨n1, n2, n3, n4, n5, n6, n7⟩ := nodeStepQ_spec pos reg ts t.id k st hinv hk
    rw [hreg_t] at n2 n4 n5
    have hk1 : (trimQ k (processQuestions pos reg t.id st)).qset.length ≤ k := by
      rw [n2]; omega
    rw [kNNQuestions_node]
    by_cases hpos : posAt pos (depth % 2) < t.coordinateAt (depth % 2)
    · rw [if_pos hpos]
      obtain ⟨a1, a2, a3, a4, a5, a6, a7⟩ :=
        ihl (depth + 1) (trimQ k (processQuestions pos reg t.id st)) htsl n1 hk1
      have hk2 : (kNNQuestions pos reg k l (depth + 1)
          (trimQ k (processQuestions pos reg t.id st))).qset.length ≤ k := by
        rw [a2]; omega
      obtain ⟨b1, b2, b3, b4, b5, b6, b7⟩ := farStepQ_spec pos reg ts k ihr t depth
        (kNNQuestions pos reg k l (depth + 1)
          (trimQ k (processQuestions pos reg t.id st))) htsr a1 hk2
      set st1 := trimQ k (processQuestions pos reg t.id st) with hst1
      set st2 := kNNQuestions pos reg k l (depth + 1) st1 with hst2
      set res := farStepQ pos reg k r t depth st2 with hres
      clear_value st1 st2 res
      have hcard1 : st1.qset.toFinset.card = st1.qset.length :=
        List.toFinset_card_of_nodup n1.2
      have hcard2 : st2.qset.toFinset.card = st2.qset.length :=
        List.toFinset_card_of_nodup a1.2
      have hsub2U : st2.qset.toFinset ⊆
          st.qset.toFinset ∪ qIdsOf (topicsOf (Tree.node t l r)) := by
        rw [qIdsOf_node]
        intro a ha
        rcases Finset.mem_union.mp (a4 ha) with h2 | h2
        · rcases Finset.mem_union.mp (n4 h2) with h3 | h3
          · exact Finset.mem_union.mpr (Or.inl h3)
          · exact Finset.mem_union.mpr (Or.inr (Finset.mem_union.mpr (Or.inl h3)))
        · exact Finset.mem_union.mpr (Or.inr (Finset.mem_union.mpr (Or.inr
            (Finset.mem_union.mpr (Or.inl h2)))))
      refine ⟨b1, ?_, ?_, ?_, ?_, ?_, ?_⟩
      · by_cases hc2 : st2.qset.length < k
        · have hc1 : st1.qset.length < k := lt_of_le_of_lt a3 hc2
          have e1 := n5 hc1
          have e2 := a5 hc2
          rw [b2, e2, e1, qIdsOf_node, union_shuffleL]
        · have h2k : st2.qset.length = k := le_antisymm hk2 (not_lt.mp hc2)
          have hrk : res.qset.length ≤ k := by
            rw [b2]
            exact min_le_left _ _
          have hreslen : res.qset.length = k :=
            le_antisymm hrk (h2k ▸ b3)
          have hUk : k ≤ (st.qset.toFinset ∪
              qIdsOf (topicsOf (Tree.node t l r))).card := by
            calc k = st2.qset.toFinset.card := (hcard2.trans h2k).symm
            _ ≤ _ := Finset.card_le_card hsub2U
          rw [hreslen]
          exact (min_eq_left hUk).symm
      · exact le_trans (le_trans n3 a3) b3
      · intro a ha
        rcases Finset.mem_union.mp (b4 ha) with h2 | h2
        · exact hsub2U h2
        · rw [qIdsOf_node]
          exact Finset.mem_union.mpr (Or.inr (Finset.mem_union.mpr (Or.inr
            (Finset.mem_union.mpr (Or.inr h2)))))
      · intro hlt
        have hc2 : st2.qset.length < k := lt_of_le_of_lt b3 hlt
        have hc1 : st1.qset.length < k := lt_of_le_of_lt a3 hc2
        rw [b5 hlt, a5 hc2, n5 hc1, qIdsOf_node]
        exact union_shuffleL _ _ _ _
      · intro q v hv
        rcases b6 q v hv with h2 | h2
        · rcases a6 q v h2 with h3 | h3
          · rcases n6 q v h3 with h4 | h4
            · exact Or.inl h4
            · exact Or.inr ⟨t, hmem_t, h4⟩
          · obtain ⟨x, hx, he⟩ := h3
            exact Or.inr ⟨x, by simp [topicsOf, hx], he⟩
        · obtain ⟨x, hx, he⟩ := h2
          exact Or.inr ⟨x, by simp [topicsOf, hx], he⟩
      · intro hsep hmap hp
        have hmap1 : MappedIn ts reg st1 := by
          intro q v hv
          rcases n6 q v hv with h2 | h2
          · exact hmap q v h2
          · rw [h2, hreg_t]
            exact hts_t
        have hp1 := n7 (by rw [hreg_t]; exact hts_t) hsep hmap hp
        obtain ⟨hmap2, hp2⟩ := a7 hsep hmap1 hp1
        exact b7 hsep hmap2 hp2
    · rw [if_neg hpos]
      obtain ⟨a1, a2, a3, a4, a5, a6, a7⟩ :=
        ihr (depth + 1) (trimQ k (processQuestions pos reg t.id st)) htsr n1 hk1
      have hk2 : (kNNQuestions pos reg k r (depth + 1)
          (trimQ k (processQuestions pos reg t.id st))).qset.length ≤ k := by
        rw [a2]; omega
      obtain ⟨b1, b2, b3, b4, b5, b6, b7⟩ := farStepQ_spec pos reg ts k ihl t depth
        (kNNQuestions pos reg k r (depth + 1)
          (trimQ k (processQuestions pos reg t.id st))) htsl a1 hk2
      set st1 := trimQ k (processQuestions pos reg t.id st) with hst1
      set st2 := kNNQuestions pos reg k r (depth + 1) st1 with hst2
      set res := farStepQ pos reg k l t depth st2 with hres
      clear_value st1 st2 res
      have hcard1 : st1.qset.toFinset.card = st1.qset.length :=
        List.toFinset_card_of_nodup n1.2
      have hcard2 : st2.qset.toFinset.card = st2.qset.length :=
        List.toFinset_card_of_nodup a1.2
      have hsub2U : st2.qset.toFinset ⊆
          st.qset.toFinset ∪ qIdsOf (topicsOf (Tree.node t l r)) := by
        rw [qIdsOf_node]
        intro a ha
        rcases Finset.mem_union.mp (a4 ha) with h2 | h2
        · rcases Finset.mem_union.mp (n4 h2) with h3 | h3
          · exact Finset.mem_union.mpr (Or.inl h3)
          · exact Finset.mem_union.mpr (Or.inr (Finset.mem_union.mpr (Or.inl h3)))
        · exact Finset.mem_union.mpr (Or.inr (Finset.mem_union.mpr (Or.inr
            (Finset.mem_union.mpr (Or.inr h2)))))
      refine ⟨b1, ?_, ?_, ?_, ?_, ?_, ?_⟩
      · by_cases hc2 : st2.qset.length < k
        · have hc1 : st1.qset.length < k := lt_of_le_of_lt a3 hc2
          have e1 := n5 hc1
          have e2 := a5 hc2
          rw [b2, e2, e1, qIdsOf_node, union_shuffleR]
        · have h2k : st2.qset.length = k := le_antisymm hk2 (not_lt.mp hc2)
          have hrk : res.qset.length ≤ k := by
            rw [b2]
            exact min_le_left _ _
          have hreslen : res.qset.length = k :=
            le_antisymm hrk (h2k ▸ b3)
          have hUk : k ≤ (st.qset.toFinset ∪
              qIdsOf (topicsOf (Tree.node t l r))).card := by
            calc k = st2.qset.toFinset.card := (hcard2.trans h2k).symm
            _ ≤ _ := Finset.card_le_card hsub2U
          rw [hreslen]
          exact (min_eq_left hUk).symm
      · exact le_trans (le_trans n3 a3) b3
      · intro a ha
        rcases Finset.mem_union.mp (b4 ha) with h2 | h2
        · exact hsub2U h2
        · rw [qIdsOf_node]
          exact Finset.mem_union.mpr (Or.inr (Finset.mem_union.mpr (Or.inr
            (Finset.mem_union.mpr (Or.inl h2)))))
      · intro hlt
        have hc2 : st2.qset.length < k := lt_of_le_of_lt b3 hlt
        have hc1 : st1.qset.length < k := lt_of_le_of_lt a3 hc2
        rw [b5 hlt, a5 hc2, n5 hc1, qIdsOf_node]
        exact union_shuffleR _ _ _ _
      · intro q v hv
        rcases b6 q v hv with h2 | h2
        · rcases a6 q v h2 with h3 | h3
          · rcases n6 q v h3 with h4 | h4
            · exact Or.inl h4
            · exact Or.inr ⟨t, hmem_t, h4⟩
          · obtain ⟨x, hx, he⟩ := h3
            exact Or.inr ⟨x, by simp [topicsOf, hx], he⟩
        · obtain ⟨x, hx, he⟩ := h2
          exact Or.inr ⟨x, by simp [topicsOf, hx], he⟩
      · intro hsep hmap hp
        have hmap1 : MappedIn ts reg st1 := by
          intro q v hv
          rcases n6 q v hv with h2 | h2
          · exact hmap q v h2
          · rw [h2, hreg_t]
            exact hts_t
        have hp1 := n7 (by rw [hreg_t]; exact hts_t) hsep hmap hp
        obtain ⟨hmap2, hp2⟩ := a7 hsep hmap1 hp1
        exact b7 hsep hmap2 hp2

/-! ### Unconditional capacity bounds (for the K = 0 and empty-index cases) -/

lemma farStep_length_le (pos : ℚ × ℚ) (k : ℕ) (B : Tree) (depth : ℕ)
    (P : Topic → Prop) (s2 : List Topic)
    (hB : ∀ (depth : ℕ) (s : List Topic), s.length ≤ k →
      (kNNTopics pos k B depth s).length ≤ k)
    (h : s2.length ≤ k) : (farStep pos k B depth P s2).length ≤ k := by
  unfold farStep
  by_cases h1 : s2.length < k
  · rw [if_pos h1]
    exact hB (depth + 1) s2 h
  · rw [if_neg h1]
    cases hgl : s2.getLast? with
    | none =>
      exact h
    | some w =>
      have hred : (match (some w : Option Topic) with
          | none => s2
          | some w => if P w then kNNTopics pos k B (depth + 1) s2 else s2) =
          (if P w then kNNTopics pos k B (depth + 1) s2 else s2) := rfl
      rw [hred]
      by_cases h2 : P w
      · rw [if_pos h2]
        exact hB (depth + 1) s2 h
      · rw [if_neg h2]
        exact h

/-- The topic result set never exceeds the capacity `k`. -/
lemma kNNTopics_length_le (pos : ℚ × ℚ) (k : ℕ) :
    ∀ (tr : Tree) (depth : ℕ) (s : List Topic), s.length ≤ k →
    (kNNTopics pos k tr depth s).length ≤ k := by
  intro tr
  induction tr with
  | nil =>
    intro depth s h
    exact h
  | node t l r ihl ihr =>
    intro depth s h
    have h1 : (trimT k (setInsert (topicLT pos) t s)).length ≤ k := by
      rw [trimT_eq_take, List.length_take]
      omega
    rw [kNNTopics_node]
    by_cases hpos : posAt pos (depth % 2) < t.coordinateAt (depth % 2)
    · rw [if_pos hpos]
      exact farStep_length_le pos k r depth _ _ ihr (ihl (depth + 1) _ h1)
    · rw [if_neg hpos]
      exact farStep_length_le pos k l depth _ _ ihl (ihr (depth + 1) _ h1)

lemma farStepQ_length_le (pos : ℚ × ℚ) (reg : TopicReg) (k : ℕ) (B : Tree)
    (t : Topic) (depth : ℕ) (st2 : QState)
    (hB : ∀ (depth : ℕ) (st : QState), st.qset.length ≤ k →
      (kNNQuestions pos reg k B depth st).qset.length ≤ k)
    (h : st2.qset.length ≤ k) :
    (farStepQ pos reg k B t depth st2).qset.length ≤ k := by
  unfold farStepQ
  by_cases h1 : st2.qset.length < k
  · rw [if_pos h1]
    exact hB (depth + 1) st2 h
  · rw [if_neg h1]
    cases hgl : st2.qset.getLast? with
    | none =>
      exact h
    | some w =>
      have hred : (match (some w : Option ℤ) with
          | none => st2
          | some w =>
            let ct := reg ((st2.cqt w).getD 0)
            if ((|posAt pos (depth % 2) - t.coordinateAt (depth % 2)| : ℚ) : ℝ) <
                distToQuery pos ct.x ct.y then
              kNNQuestions pos reg k B (depth + 1) st2
            else st2) =
          (if ((|posAt pos (depth % 2) - t.coordinateAt (depth % 2)| : ℚ) : ℝ) <
              distToQuery pos (reg ((st2.cqt w).getD 0)).x
                (reg ((st2.cqt w).getD 0)).y then
            kNNQuestions pos reg k B (depth + 1) st2
          else st2) := rfl
      rw [hred]
      by_cases h2 : ((|posAt pos (depth % 2) - t.coordinateAt (depth % 2)| : ℚ) : ℝ) <
          distToQuery pos (reg ((st2.cqt w).getD 0)).x (reg ((st2.cqt w).getD 0)).y
      · rw [if_pos h2]
        exact hB (depth + 1) st2 h
      · rw [if_neg h2]
        exact h

/-- The question result set never exceeds the capacity `k`. -/
lemma kNNQuestions_length_le (pos : ℚ × ℚ) (reg : TopicReg) (k : ℕ) :
    ∀ (tr : Tree) (depth : ℕ) (st : QState), st.qset.length ≤ k →
    (kNNQuestions pos reg k tr depth st).qset.length ≤ k := by
  intro tr
  induction tr with
  | nil =>
    intro depth st h
    exact h
  | node t l r ihl ihr =>
    intro depth st h
    have h1 : (trimQ k (processQuestions pos reg t.id st)).qset.length ≤ k := by
      rw [trimQ_qset, List.length_take]
      omega
    rw [kNNQuestions_node]
    by_cases hpos : posAt pos (depth % 2) < t.coordinateAt (depth % 2)
    · rw [if_pos hpos]
      exact farStepQ_length_le pos reg k r t depth _ ihr (ihl (depth + 1) _ h1)
    · rw [if_neg hpos]
      exact farStepQ_length_le pos reg k l t depth _ ihl (ihr (depth + 1) _ h1)

/-! ### The kd-tree ordering invariant (claim C7) -/

/-- The spatial-index invariant: at every node, topics in the left subtree
are strictly smaller on the depth-parity splitting axis, and topics in the
right subtree are greater or equal. -/
def KdInv : Tree → ℕ → Prop
  | .nil, _ => True
  | .node t l r, depth =>
    (∀ u ∈ topicsOf l, u.coordinateAt (depth % 2) < t.coordinateAt (depth % 2)) ∧
    (∀ u ∈ topicsOf r, t.coordinateAt (depth % 2) ≤ u.coordinateAt (depth % 2)) ∧
    KdInv l (depth + 1) ∧ KdInv r (depth + 1)

lemma KdInv_insert : ∀ (tr : Tree) (depth : ℕ) (x : Topic),
    KdInv tr depth → KdInv (tr.insert depth x) depth := by
  intro tr
  induction tr with
  | nil =>
    intro depth x _
    refine ⟨?_, ?_, trivial, trivial⟩ <;> simp [topicsOf]
  | node t l r ihl ihr =>
    intro depth x h
    obtain ⟨hL, hR, hl, hr⟩ := h
    rw [Tree.insert]
    by_cases hlt : x.coordinateAt (depth % 2) < t.coordinateAt (depth % 2)
    · rw [if_pos hlt]
      refine ⟨?_, hR, ihl (depth + 1) x hl, hr⟩
      intro u hu
      rcases List.mem_cons.mp
          ((topicsOf_insert_perm l (depth + 1) x).mem_iff.mp hu) with h2 | h2
      · rw [h2]
        exact hlt
      · exact hL u h2
    · rw [if_neg hlt]
      refine ⟨hL, ?_, hl, ihr (depth + 1) x hr⟩
      intro u hu
      rcases List.mem_cons.mp
          ((topicsOf_insert_perm r (depth + 1) x).mem_iff.mp hu) with h2 | h2
      · rw [h2]
        exact not_lt.mp hlt
      · exact hR u h2

lemma KdInv_buildTree (ts : List Topic) : KdInv (buildTree ts) 0 := by
  have key : ∀ (l : List Topic) (tr : Tree), KdInv tr 0 →
      KdInv (l.foldl Tree.insertTop tr) 0 := by
    intro l
    induction l with
    | nil =>
      intro tr h
      exact h
    | cons x xs ih =>
      intro tr h
      exact ih (tr.insertTop x) (KdInv_insert tr 0 x h)
  exact key ts .nil trivial

/-! ### The registry built from the input topic records -/

/-- The topic registry obtained from the build-phase topic records (the
contents of `unordered_map<int, Topic> topics` after input, as a total
function with default-constructed entries for unknown ids). -/
def regOf (ts : List Topic) : TopicReg :=
  fun i => (ts.find? (fun t => t.id == i)).getD default

lemma regOf_eq {ts : List Topic} (hnd : (ts.map Topic.id).Nodup) {t : Topic}
    (ht : t ∈ ts) : regOf ts t.id = t := by
  induction ts with
  | nil => cases ht
  | cons x xs ih =>
    rw [List.map_cons, List.nodup_cons] at hnd
    rcases List.mem_cons.mp ht with rfl | ht2
    · unfold regOf
      rw [List.find?_cons_of_pos _ (by simp)]
      rfl
    · by_cases hx : x.id = t.id
      · exact absurd (hx ▸ List.mem_map.mpr ⟨t, ht2, rfl⟩) hnd.1
      · unfold regOf
        rw [List.find?_cons_of_neg _ (by simpa using hx)]
        exact ih hnd.2 ht2

lemma qIdsOf_perm {l l' : List Topic} (h : l.Perm l') : qIdsOf l = qIdsOf l' := by
  unfold qIdsOf
  ext a
  simp only [List.mem_toFinset, List.mem_flatten, List.mem_map]
  constructor
  · rintro ⟨L, ⟨t, ht, rfl⟩, ha⟩
    exact ⟨t.questionIds, ⟨t, h.mem_iff.mp ht, rfl⟩, ha⟩
  · rintro ⟨L, ⟨t, ht, rfl⟩, ha⟩
    exact ⟨t.questionIds, ⟨t, h.mem_iff.mpr ht, rfl⟩, ha⟩

/-! ### Output-order predicates, as the spec states them -/

/-- The topic output list is sorted as the spec demands: no later element
strictly precedes an earlier one under the program's comparator (nearer by
more than epsilon first; among epsilon-ties the larger id first). -/
def TopicOutSorted (pos : ℚ × ℚ) (l : List Topic) : Prop :=
  l.Pairwise (fun a b => ¬ topicLT pos b a)

/-- The question output list is sorted as the spec demands, under the
comparator evaluated at the final best-topic map. -/
def QuestionOutSorted (pos : ℚ × ℚ) (reg : TopicReg) (st : QState) : Prop :=
  st.qset.Pairwise (fun a b => ¬ questionLT pos reg st.cqt b a)

/-! ### Claim theorems -/

/-- C1: the branch-and-bound traversal does not match the brute-force
top-K selection.  With topics id 1 at (1,0) and id 2 at (1.0005,0) and a
K = 1 topic query at the origin, the traversal prunes the far child because
the perpendicular distance (1) is not raw-strictly smaller than the worst
kept distance (1), missing topic 2 whose distance epsilon-ties topic 1's and
whose larger id should win the tie: the code prints `1`, the brute-force
selection under the same comparator yields `2`. -/
theorem C1_branch_and_bound_misses_epsilon_tie :
    (kNNTopics (0, 0) 1 treeA 0 []).map Topic.id = [1] ∧
    (bruteTopics (0, 0) 1 [exT1, exT2]).map Topic.id = [2] ∧
    (kNNTopics (0, 0) 1 treeA 0 []).map Topic.id ≠
      (bruteTopics (0, 0) 1 [exT1, exT2]).map Topic.id := by
  rw [runA_topics, runA_brute]
  exact ⟨by decide, by decide, by decide⟩

/-- C5: the far-child pruning decision uses a raw strict comparison, not
the epsilon-equality policy.  On the same scenario as C1, the code's
traversal (raw `<`) keeps only id 1 while the spec-modelled epsilon-policy
traversal explores the far child and returns id 2: the two decision rules
are observably different, so the pruning test does not treat
distances within epsilon as equal. -/
theorem C5_pruning_uses_raw_strict_comparison :
    kNNTopics (0, 0) 1 treeA 0 [] = [exT1] ∧
    kNNTopicsEps (0, 0) 1 treeA 0 [] = [exT2] ∧
    kNNTopics (0, 0) 1 treeA 0 [] ≠ kNNTopicsEps (0, 0) 1 treeA 0 [] := by
  rw [runA_topics, runA_eps]
  exact ⟨rfl, rfl, by decide⟩

/-- C7: every index built by a sequence of insertions from the empty tree
satisfies the splitting-axis invariant at every node (left subtree strictly
smaller on the depth-parity axis, right subtree greater-or-equal), and the
multiset of stored topics is exactly the multiset of inserted records, so
two topics at the same coordinate are both retained as distinct nodes. -/
theorem C7_build_invariant_and_retention (ts : List Topic) :
    KdInv (buildTree ts) 0 ∧ (topicsOf (buildTree ts)).Perm ts :=
  ⟨KdInv_buildTree ts, buildTree_perm ts⟩

/-- C8: executing the same query twice in a row against an unmodified index
prints identical lines, because each query branch first clears the
process-wide containers it reads, so the printed output does not depend on
the global state left by the first execution. -/
theorem C8_repeated_query_same_output (tree : Tree) (reg : TopicReg) (g : GState)
    (q : Query) :
    (runQuery tree reg g q).1 = (runQuery tree reg ((runQuery tree reg g q).2) q).1 := by
  unfold runQuery
  split_ifs <;> rfl

/-- C9: a query of either type with K = 0 prints an empty line, and a query
of either type against an index with no insertions prints an empty line;
the traversals are total functions, so in both cases the result is the
empty id list rather than an error. -/
theorem C9_zero_k_and_empty_index_empty_output (pos : ℚ × ℚ) (k : ℕ)
    (reg : TopicReg) (g : GState) (tree : Tree) :
    (runQuery .nil reg g ⟨'t', k, pos⟩).1 = some [] ∧
    (runQuery .nil reg g ⟨'q', k, pos⟩).1 = some [] ∧
    (runQuery tree reg g ⟨'t', 0, pos⟩).1 = some [] ∧
    (runQuery tree reg g ⟨'q', 0, pos⟩).1 = some [] := by
  refine ⟨?_, ?_, ?_, ?_⟩
  · simp [runQuery, kNNTopics]
  · simp [runQuery, kNNQuestions]
  · have hlen := kNNTopics_length_le pos 0 tree 0 [] (le_refl 0)
    have hnil : kNNTopics pos 0 tree 0 [] = [] := by
      cases he : kNNTopics pos 0 tree 0 [] with
      | nil => rfl
      | cons a as =>
        rw [he] at hlen
        simp at hlen
    simp [runQuery, hnil]
  · have hlen := kNNQuestions_length_le pos reg 0 tree 0 ⟨[], fun _ => none⟩ (by simp)
    have hnil : (kNNQuestions pos reg 0 tree 0 ⟨[], fun _ => none⟩).qset = [] := by
      cases he : (kNNQuestions pos reg 0 tree 0 ⟨[], fun _ => none⟩).qset with
      | nil => rfl
      | cons a as =>
        rw [he] at hlen
        simp at hlen
    simp [runQuery, hnil]

/-- C2 counterexample: with topics id 1, 2, 3 at distances 0, 0.0009,
0.0018 (an epsilon chain) inserted in the order 3, 2, 1, the K = 3 topic
query at the origin prints `1 3 2`.  Ids 1 (distance 0) and 2 (distance
0.0009) are epsilon-tied, so the claimed order demands the larger id 2
before id 1; the output violates the claimed sort order: under the
program's own comparator a later element (id 2) strictly precedes an
earlier one (id 1). -/
theorem C2_counterexample_unsorted_output :
    (kNNTopics (0, 0) 3 treeB 0 []).map Topic.id = [1, 3, 2] ∧
    ¬ TopicOutSorted (0, 0) (kNNTopics (0, 0) 3 treeB 0 []) := by
  rw [TopicOutSorted, runB_topics]
  refine ⟨by decide, ?_⟩
  intro hsort
  have h12 : ¬ topicLT (0, 0) tB2 tB1 :=
    (List.pairwise_cons.mp hsort).1 tB2 (by simp)
  apply h12
  norm_num [topicLT, tB1, tB2, compareDouble, EPSILON, distToQuery_origin,
    abs_of_nonneg]

/-- C2 amended: for a topic query with K ≤ T against an index built from T
records with distinct ids, the output holds exactly K topics with distinct
ids; and provided every two topic distances to the query are exactly equal
or differ by more than epsilon, the output is sorted: nearer first, the
larger id first among equal distances. -/
theorem C2_amended_topic_query (ts : List Topic) (pos : ℚ × ℚ) (k : ℕ)
    (hids : (ts.map Topic.id).Nodup) (hk : k ≤ ts.length) :
    (kNNTopics pos k (buildTree ts) 0 []).length = k ∧
    ((kNNTopics pos k (buildTree ts) 0 []).map Topic.id).Nodup ∧
    (PairwiseSeparated pos ts →
      TopicOutSorted pos (kNNTopics pos k (buildTree ts) 0 [])) := by
  have hnd : (([] ++ topicsOf (buildTree ts)).map Topic.id).Nodup := by
    simp only [List.nil_append]
    exact ((buildTree_perm ts).map Topic.id).nodup_iff.mpr hids
  obtain ⟨e1, e2, e3, e4⟩ := kNNTopics_spec pos k (buildTree ts) 0 [] hnd (by simp)
  refine ⟨?_, e3, ?_⟩
  · rw [e1, List.length_nil, Nat.zero_add, (buildTree_perm ts).length_eq]
    omega
  · intro hsep
    have hp := e4 ts (by simp) (fun x hx => (buildTree_perm ts).mem_iff.mp hx)
      hsep List.Pairwise.nil
    refine hp.imp ?_
    intro a b hab hc
    exact @cmpLT_asymm Topic (distOf pos) Topic.id a b
      (by rw [topicLT_eq_cmpLT] at hab; exact hab)
      (by rw [topicLT_eq_cmpLT] at hc; exact hc)

/-- Witness topic 1 for the amended C2 and C3 theorems. -/
def tW1 : Topic := ⟨1, 0, 0, [7]⟩

/-- Witness topic 2 for the amended C2 and C3 theorems. -/
def tW2 : Topic := ⟨2, 5, 0, [8]⟩

/-- Witness for the amended C2 theorem at the concrete input
`ts = [tW1, tW2]`, `K = 1`, query at the origin. -/
theorem C2_amended_topic_query_witness :
    (([tW1, tW2].map Topic.id).Nodup ∧ 1 ≤ [tW1, tW2].length) ∧
    ((kNNTopics (0, 0) 1 (buildTree [tW1, tW2]) 0 []).length = 1 ∧
      ((kNNTopics (0, 0) 1 (buildTree [tW1, tW2]) 0 []).map Topic.id).Nodup ∧
      (PairwiseSeparated (0, 0) [tW1, tW2] →
        TopicOutSorted (0, 0) (kNNTopics (0, 0) 1 (buildTree [tW1, tW2]) 0 []))) :=
  ⟨⟨by decide, by decide⟩,
    C2_amended_topic_query [tW1, tW2] (0, 0) 1 (by decide) (by decide)⟩

/-- C3 counterexample: the question-query analogue of the C2 scenario —
topics 11, 12, 13 at distances 0, 0.0009, 0.0018 each carrying one question
(1, 2, 3 respectively), K = 3 question query at the origin.  The printed
order is `1 3 2`, but questions 1 (best distance 0) and 2 (best distance
0.0009) are epsilon-tied, so the claimed order demands id 2 before id 1:
the output violates the claimed sort order under the program's own
comparator at the final best-topic map. -/
theorem C3_counterexample_unsorted_output :
    (kNNQuestions (0, 0) regC 3 treeC 0 ⟨[], fun _ => none⟩).qset = [1, 3, 2] ∧
    ¬ QuestionOutSorted (0, 0) regC
      (kNNQuestions (0, 0) regC 3 treeC 0 ⟨[], fun _ => none⟩) := by
  obtain ⟨hq, h1, h2⟩ := runC_questions
  refine ⟨hq, ?_⟩
  intro hsort
  rw [QuestionOutSorted, hq] at hsort
  have h12 : ¬ questionLT (0, 0) regC
      (kNNQuestions (0, 0) regC 3 treeC 0 ⟨[], fun _ => none⟩).cqt 2 1 :=
    (List.pairwise_cons.mp hsort).1 2 (by simp)
  apply h12
  unfold questionLT
  rw [h1, h2]
  norm_num [regC, tC1, tC2, compareDouble, EPSILON, distToQuery_origin,
    abs_of_nonneg]

/-- C3 amended: for a question query against an index built from records
with distinct topic ids, the output holds exactly `min K Q'` distinct
question ids, where `Q'` counts the questions listed by at least one topic;
and provided every two topic distances to the query are exactly equal or
differ by more than epsilon, the output is sorted by best-topic distance,
the larger id first among equal distances. -/
theorem C3_amended_question_query (ts : List Topic) (pos : ℚ × ℚ) (k : ℕ)
    (hids : (ts.map Topic.id).Nodup) :
    (kNNQuestions pos (regOf ts) k (buildTree ts) 0 ⟨[], fun _ => none⟩).qset.length =
      min k (qIdsOf ts).card ∧
    (kNNQuestions pos (regOf ts) k (buildTree ts) 0 ⟨[], fun _ => none⟩).qset.Nodup ∧
    (PairwiseSeparated pos ts →
      QuestionOutSorted pos (regOf ts)
        (kNNQuestions pos (regOf ts) k (buildTree ts) 0 ⟨[], fun _ => none⟩)) := by
  have hts : ∀ x ∈ topicsOf (buildTree ts), x ∈ ts ∧ regOf ts x.id = x := by
    intro x hx
    have hx2 : x ∈ ts := (buildTree_perm ts).mem_iff.mp hx
    exact ⟨hx2, regOf_eq hids hx2⟩
  have hinv : QSetInv ⟨[], fun _ => none⟩ := ⟨by simp, List.nodup_nil⟩
  obtain ⟨c1, c2, c3, c4, c5, c6, c7⟩ := kNNQuestions_spec pos (regOf ts) ts k
    (buildTree ts) 0 ⟨[], fun _ => none⟩ hts hinv (by simp)
  refine ⟨?_, c1.2, ?_⟩
  · rw [c2]
    have he : (⟨[], fun _ => none⟩ : QState).qset.toFinset = ∅ := rfl
    rw [he, Finset.empty_union, qIdsOf_perm (buildTree_perm ts)]
  · intro hsep
    obtain ⟨hmap, hp⟩ := c7 hsep (fun q v hv => by cases hv) List.Pairwise.nil
    refine hp.imp ?_
    intro a b hab hc
    exact cmpLT_asymm
      (by rw [questionLT_eq_cmpLT] at hab; exact hab)
      (by rw [questionLT_eq_cmpLT] at hc; exact hc)

/-- Witness for the amended C3 theorem at the concrete input
`ts = [tW1, tW2]`, `K = 1`, query at the origin. -/
theorem C3_amended_question_query_witness :
    ([tW1, tW2].map Topic.id).Nodup ∧
    ((kNNQuestions (0, 0) (regOf [tW1, tW2]) 1 (buildTree [tW1, tW2]) 0
        ⟨[], fun _ => none⟩).qset.length = min 1 (qIdsOf [tW1, tW2]).card ∧
      (kNNQuestions (0, 0) (regOf [tW1, tW2]) 1 (buildTree [tW1, tW2]) 0
        ⟨[], fun _ => none⟩).qset.Nodup ∧
      (PairwiseSeparated (0, 0) [tW1, tW2] →
        QuestionOutSorted (0, 0) (regOf [tW1, tW2])
          (kNNQuestions (0, 0) (regOf [tW1, tW2]) 1 (buildTree [tW1, tW2]) 0
            ⟨[], fun _ => none⟩))) :=
  ⟨by decide, C3_amended_question_query [tW1, tW2] (0, 0) 1 (by decide)⟩

/-- The far-child phase of the topic traversal, with its nested conditionals
merged into a single guard: the far child is explored if and only if the set
is short of `k`, or there is a worst-kept element and the pruning test
passes on it. -/
lemma farStep_eq_merged (pos : ℚ × ℚ) (k : ℕ) (B : Tree) (depth : ℕ)
    (P : Topic → Prop) (s2 : List Topic) :
    farStep pos k B depth P s2 =
      if s2.length < k ∨ (∃ w, s2.getLast? = some w ∧ P w)
      then kNNTopics pos k B (depth + 1) s2 else s2 := by
  unfold farStep
  by_cases h1 : s2.length < k
  · rw [if_pos h1, if_pos (Or.inl h1)]
  · rw [if_neg h1]
    cases hgl : s2.getLast? with
    | none =>
      have hred : (match (none : Option Topic) with
          | none => s2
          | some w => if P w then kNNTopics pos k B (depth + 1) s2 else s2) = s2 := rfl
      rw [hred, if_neg]
      rintro (h | ⟨w, hw, _⟩)
      · exact h1 h
      · cases hw
    | some w =>
      have hred : (match (some w : Option Topic) with
          | none => s2
          | some w => if P w then kNNTopics pos k B (depth + 1) s2 else s2) =
          (if P w then kNNTopics pos k B (depth + 1) s2 else s2) := rfl
      rw [hred]
      by_cases h2 : P w
      · rw [if_pos h2, if_pos (Or.inr ⟨w, rfl, h2⟩)]
      · rw [if_neg h2, if_neg]
        rintro (h | ⟨w2, hw2, hp2⟩)
        · exact h1 h
        · injection hw2 with he
          exact h2 (by rwa [← he] at hp2)

/-- The far-child phase of the question traversal with merged guard. -/
lemma farStepQ_eq_merged (pos : ℚ × ℚ) (reg : TopicReg) (k : ℕ) (B : Tree)
    (t : Topic) (depth : ℕ) (st2 : QState) :
    farStepQ pos reg k B t depth st2 =
      if st2.qset.length < k ∨ (∃ w, st2.qset.getLast? = some w ∧
          ((|posAt pos (depth % 2) - t.coordinateAt (depth % 2)| : ℚ) : ℝ) <
            distToQuery pos (reg ((st2.cqt w).getD 0)).x (reg ((st2.cqt w).getD 0)).y)
      then kNNQuestions pos reg k B (depth + 1) st2 else st2 := by
  unfold farStepQ
  by_cases h1 : st2.qset.length < k
  · rw [if_pos h1, if_pos (Or.inl h1)]
  · rw [if_neg h1]
    cases hgl : st2.qset.getLast? with
    | none =>
      have hred : (match (none : Option ℤ) with
          | none => st2
          | some w =>
            let ct := reg ((st2.cqt w).getD 0)
            if ((|posAt pos (depth % 2) - t.coordinateAt (depth % 2)| : ℚ) : ℝ) <
                distToQuery pos ct.x ct.y then
              kNNQuestions pos reg k B (depth + 1) st2
            else st2) = st2 := rfl
      rw [hred, if_neg]
      rintro (h | ⟨w, hw, _⟩)
      · exact h1 h
      · cases hw
    | some w =>
      have hred : (match (some w : Option ℤ) with
          | none => st2
          | some w =>
            let ct := reg ((st2.cqt w).getD 0)
            if ((|posAt pos (depth % 2) - t.coordinateAt (depth % 2)| : ℚ) : ℝ) <
                distToQuery pos ct.x ct.y then
              kNNQuestions pos reg k B (depth + 1) st2
            else st2) =
          (if ((|posAt pos (depth % 2) - t.coordinateAt (depth % 2)| : ℚ) : ℝ) <
              distToQuery pos (reg ((st2.cqt w).getD 0)).x
                (reg ((st2.cqt w).getD 0)).y then
            kNNQuestions pos reg k B (depth + 1) st2
          else st2) := rfl
      rw [hred]
      by_cases h2 : ((|posAt pos (depth % 2) - t.coordinateAt (depth % 2)| : ℚ) : ℝ) <
          distToQuery pos (reg ((st2.cqt w).getD 0)).x (reg ((st2.cqt w).getD 0)).y
      · rw [if_pos h2, if_pos (Or.inr ⟨w, rfl, h2⟩)]
      · rw [if_neg h2, if_neg]
        rintro (h | ⟨w2, hw2, hp2⟩)
        · exact h1 h
        · injection hw2 with he
          exact h2 (by rwa [← he] at hp2)

/-- C6: at every visited node, after inserting (resp. processing) and
trimming and after the near-child recursion, the far child is traversed if
and only if the result set holds fewer than K elements, or there is a
worst-kept candidate and the perpendicular splitting-plane distance is
smaller (raw `<`) than its distance — for question queries the bound is the
worst-kept question's recorded best-topic distance. -/
theorem C6_far_child_rule :
    (∀ (pos : ℚ × ℚ) (k : ℕ) (t : Topic) (l r : Tree) (depth : ℕ) (s : List Topic),
      kNNTopics pos k (.node t l r) depth s =
        (let s1 := trimT k (setInsert (topicLT pos) t s)
         let near := if posAt pos (depth % 2) < t.coordinateAt (depth % 2) then l else r
         let far := if posAt pos (depth % 2) < t.coordinateAt (depth % 2) then r else l
         let s2 := kNNTopics pos k near (depth + 1) s1
         if s2.length < k ∨ (∃ w, s2.getLast? = some w ∧
             ((|posAt pos (depth % 2) - t.coordinateAt (depth % 2)| : ℚ) : ℝ) <
               distToQuery pos w.x w.y)
         then kNNTopics pos k far (depth + 1) s2
         else s2)) ∧
    (∀ (pos : ℚ × ℚ) (reg : TopicReg) (k : ℕ) (t : Topic) (l r : Tree) (depth : ℕ)
        (st : QState),
      kNNQuestions pos reg k (.node t l r) depth st =
        (let st1 := trimQ k (processQuestions pos reg t.id st)
         let near := if posAt pos (depth % 2) < t.coordinateAt (depth % 2) then l else r
         let far := if posAt pos (depth % 2) < t.coordinateAt (depth % 2) then r else l
         let st2 := kNNQuestions pos reg k near (depth + 1) st1
         if st2.qset.length < k ∨ (∃ w, st2.qset.getLast? = some w ∧
             ((|posAt pos (depth % 2) - t.coordinateAt (depth % 2)| : ℚ) : ℝ) <
               distToQuery pos (reg ((st2.cqt w).getD 0)).x
                 (reg ((st2.cqt w).getD 0)).y)
         then kNNQuestions pos reg k far (depth + 1) st2
         else st2)) := by
  constructor
  · intro pos k t l r depth s
    rw [kNNTopics_node]
    by_cases hpos : posAt pos (depth % 2) < t.coordinateAt (depth % 2)
    · simp only [if_pos hpos, farStep_eq_merged, perpP]
    · simp only [if_neg hpos, farStep_eq_merged, perpP]
  · intro pos reg k t l r depth st
    rw [kNNQuestions_node]
    by_cases hpos : posAt pos (depth % 2) < t.coordinateAt (depth % 2)
    · simp only [if_pos hpos, farStepQ_eq_merged]
    · simp only [if_neg hpos, farStepQ_eq_merged]

/-- C4: during a question query, a question with a recorded best topic is
re-ranked if and only if the visited topic is closer by more than epsilon
(`compareDouble old new`), or the two distances are within epsilon and the
visited topic's id is numerically greater; when it is, the stale result-set
entry is erased under the comparator at the old map, the map is updated,
and the question is re-inserted under the comparator at the new map —
otherwise the state is untouched. -/
theorem C4_best_topic_update_rule (pos : ℚ × ℚ) (reg : TopicReg) (st : QState)
    (qi curId oldId : ℤ) (h : st.cqt qi = some oldId) :
    ((processQuestion pos reg curId st qi).cqt qi =
      (if compareDouble (distToQuery pos (reg oldId).x (reg oldId).y)
            (distToQuery pos (reg curId).x (reg curId).y) ∨
          (|distToQuery pos (reg oldId).x (reg oldId).y -
              distToQuery pos (reg curId).x (reg curId).y| ≤ EPSILON ∧ curId > oldId)
        then some curId else some oldId)) ∧
    ((compareDouble (distToQuery pos (reg oldId).x (reg oldId).y)
          (distToQuery pos (reg curId).x (reg curId).y) ∨
        (|distToQuery pos (reg oldId).x (reg oldId).y -
            distToQuery pos (reg curId).x (reg curId).y| ≤ EPSILON ∧ curId > oldId)) →
      processQuestion pos reg curId st qi =
        ⟨setInsert (questionLT pos reg (mapInsert st.cqt qi curId)) qi
            (setEraseV (questionLT pos reg st.cqt) qi st.qset),
          mapInsert st.cqt qi curId⟩) ∧
    (¬ (compareDouble (distToQuery pos (reg oldId).x (reg oldId).y)
          (distToQuery pos (reg curId).x (reg curId).y) ∨
        (|distToQuery pos (reg oldId).x (reg oldId).y -
            distToQuery pos (reg curId).x (reg curId).y| ≤ EPSILON ∧ curId > oldId)) →
      processQuestion pos reg curId st qi = st) := by
  have hred : processQuestion pos reg curId st qi =
      (if compareDouble (distToQuery pos (reg oldId).x (reg oldId).y)
            (distToQuery pos (reg curId).x (reg curId).y) ∨
          (|distToQuery pos (reg oldId).x (reg oldId).y -
              distToQuery pos (reg curId).x (reg curId).y| ≤ EPSILON ∧ curId > oldId)
        then ⟨setInsert (questionLT pos reg (mapInsert st.cqt qi curId)) qi
            (setEraseV (questionLT pos reg st.cqt) qi st.qset),
          mapInsert st.cqt qi curId⟩
        else st) := by
    unfold processQuestion
    rw [h]
  by_cases hcond : compareDouble (distToQuery pos (reg oldId).x (reg oldId).y)
      (distToQuery pos (reg curId).x (reg curId).y) ∨
      (|distToQuery pos (reg oldId).x (reg oldId).y -
          distToQuery pos (reg curId).x (reg curId).y| ≤ EPSILON ∧ curId > oldId)
  · refine ⟨?_, fun _ => by rw [hred, if_pos hcond], fun hc => absurd hcond hc⟩
    rw [hred, if_pos hcond, if_pos hcond]
    exact mapInsert_self st.cqt qi curId
  · refine ⟨?_, fun hc => absurd hc hcond, fun _ => by rw [hred, if_neg hcond]⟩
    rw [hred, if_neg hcond, if_neg hcond]
    exact h

/-- Witness state for the C4 theorem: question 2 currently mapped to
topic 12. -/
def stW : QState := ⟨[2], fun q => if q = 2 then some 12 else none⟩

/-- Witness for the C4 theorem at the concrete input: scenario C registry,
question 2 with recorded topic 12, visited topic 13 (epsilon-tied and
larger id, so the update fires). -/
theorem C4_best_topic_update_rule_witness :
    stW.cqt 2 = some 12 ∧
    (((processQuestion (0, 0) regC 13 stW 2).cqt 2 =
      (if compareDouble (distToQuery (0, 0) (regC 12).x (regC 12).y)
            (distToQuery (0, 0) (regC 13).x (regC 13).y) ∨
          (|distToQuery (0, 0) (regC 12).x (regC 12).y -
              distToQuery (0, 0) (regC 13).x (regC 13).y| ≤ EPSILON ∧ (13 : ℤ) > 12)
        then some 13 else some 12)) ∧
    ((compareDouble (distToQuery (0, 0) (regC 12).x (regC 12).y)
          (distToQuery (0, 0) (regC 13).x (regC 13).y) ∨
        (|distToQuery (0, 0) (regC 12).x (regC 12).y -
            distToQuery (0, 0) (regC 13).x (regC 13).y| ≤ EPSILON ∧ (13 : ℤ) > 12)) →
      processQuestion (0, 0) regC 13 stW 2 =
        ⟨setInsert (questionLT (0, 0) regC (mapInsert stW.cqt 2 13)) 2
            (setEraseV (questionLT (0, 0) regC stW.cqt) 2 stW.qset),
          mapInsert stW.cqt 2 13⟩) ∧
    (¬ (compareDouble (distToQuery (0, 0) (regC 12).x (regC 12).y)
          (distToQuery (0, 0) (regC 13).x (regC 13).y) ∨
        (|distToQuery (0, 0) (regC 12).x (regC 12).y -
            distToQuery (0, 0) (regC 13).x (regC 13).y| ≤ EPSILON ∧ (13 : ℤ) > 12)) →
      processQuestion (0, 0) regC 13 stW 2 = stW)) :=
  ⟨rfl, C4_best_topic_update_rule (0, 0) regC stW 2 13 12 rfl⟩

/-- C10: after the per-node processing step of a question query (process all
the visited topic's questions, then trim), and after a whole traversal over
any subtree, the ids present in the bounded question result set are exactly
the keys of the `closestQuestionTopic` map, and the result set holds no
duplicate ids. -/
theorem C10_result_ids_equal_map_keys :
    (∀ (pos : ℚ × ℚ) (reg : TopicReg) (k : ℕ) (curId : ℤ) (st : QState),
      QSetInv st → st.qset.length ≤ k →
      ((∀ q : ℤ, q ∈ (trimQ k (processQuestions pos reg curId st)).qset ↔
          ((trimQ k (processQuestions pos reg curId st)).cqt q).isSome) ∧
        (trimQ k (processQuestions pos reg curId st)).qset.Nodup)) ∧
    (∀ (pos : ℚ × ℚ) (ts : List Topic) (k depth : ℕ) (st : QState),
      (ts.map Topic.id).Nodup → QSetInv st → st.qset.length ≤ k →
      ((∀ q : ℤ, q ∈ (kNNQuestions pos (regOf ts) k (buildTree ts) depth st).qset ↔
          ((kNNQuestions pos (regOf ts) k (buildTree ts) depth st).cqt q).isSome) ∧
        (kNNQuestions pos (regOf ts) k (buildTree ts) depth st).qset.Nodup)) := by
  constructor
  · intro pos reg k curId st h hk
    exact (nodeStepQ_spec pos reg [] curId k st h hk).1
  · intro pos ts k depth st hids h hk
    have hts : ∀ x ∈ topicsOf (buildTree ts), x ∈ ts ∧ regOf ts x.id = x := by
      intro x hx
      have hx2 : x ∈ ts := (buildTree_perm ts).mem_iff.mp hx
      exact ⟨hx2, regOf_eq hids hx2⟩
    exact (kNNQuestions_spec pos (regOf ts) ts k (buildTree ts) depth st hts h hk).1

/-- Witness for the C10 theorem: both parts applied at concrete inputs
(scenario C data, the empty initial state, K = 3). -/
theorem C10_result_ids_equal_map_keys_witness :
    (QSetInv ⟨[], fun _ => none⟩ ∧ (⟨[], fun _ => none⟩ : QState).qset.length ≤ 3 ∧
      ([tC1, tC2, tC3].map Topic.id).Nodup) ∧
    ((∀ q : ℤ, q ∈ (trimQ 3 (processQuestions (0, 0) regC 11
        ⟨[], fun _ => none⟩)).qset ↔
        ((trimQ 3 (processQuestions (0, 0) regC 11 ⟨[], fun _ => none⟩)).cqt q).isSome) ∧
      (trimQ 3 (processQuestions (0, 0) regC 11 ⟨[], fun _ => none⟩)).qset.Nodup) ∧
    ((∀ q : ℤ, q ∈ (kNNQuestions (0, 0) (regOf [tC1, tC2, tC3]) 3
        (buildTree [tC1, tC2, tC3]) 0 ⟨[], fun _ => none⟩).qset ↔
        ((kNNQuestions (0, 0) (regOf [tC1, tC2, tC3]) 3 (buildTree [tC1, tC2, tC3]) 0
          ⟨[], fun _ => none⟩).cqt q).isSome) ∧
      (kNNQuestions (0, 0) (regOf [tC1, tC2, tC3]) 3 (buildTree [tC1, tC2, tC3]) 0
        ⟨[], fun _ => none⟩).qset.Nodup) :=
  ⟨⟨⟨by simp, List.nodup_nil⟩, by decide, by decide⟩,
    C10_result_ids_equal_map_keys.1 (0, 0) regC 3 11 ⟨[], fun _ => none⟩
      ⟨by simp, List.nodup_nil⟩ (by decide),
    C10_result_ids_equal_map_keys.2 (0, 0) [tC1, tC2, tC3] 3 0 ⟨[], fun _ => none⟩
      (by decide) ⟨by simp, List.nodup_nil⟩ (by decide)⟩

end NearbySolver
